import Mathlib

/-!
Verification development for the `infers-jsonschema` crate.

The crate infers a JSON Schema (draft-07 subset) from a sample JSON value.
Its current implementation lives in `src/lib.rs`; `src/inference.rs` is an
older variant of the same pipeline.  This file gives a shallow embedding of
`src/lib.rs` — the authoritative version — and proves/refutes the frozen
claims about it.

Embedding conventions:
* `serde_json::Value` is modelled by the inductive `Infers.Value`; a
  `serde_json::Number` is modelled by its `is_f64` flag plus an integer
  payload (the payload is irrelevant to the library: only the flag is read).
* `serde_json::Map` (the default `BTreeMap` backend: keys sorted, unique)
  is modelled by key-sorted association lists manipulated exclusively by
  `lookupKV` / `insertKV`.
* Code that can panic (`unwrap`) is modelled in `Option`: `none` is a panic.
* `std::collections::hash_map::DefaultHasher` (SipHash-1-3, fixed keys —
  a deterministic hash into 64 bits) is modelled by `hashFeed`, which mirrors
  the structure of `ValueWrapper::hash` exactly (the write sequence per
  variant, XOR-combination for objects); the byte-level mixing of SipHash is
  replaced by a simpler deterministic mix.  Every theorem below uses only the
  two facts that also hold of the real hasher: it is a pure function of the
  value's structure, and its codomain has 2^64 elements.
-/

namespace Infers

/-- Model of `serde_json::Value`.  `num isFloat val` models `Value::Number`
where `isFloat` is `Number::is_f64()`; the payload is irrelevant to this
crate (only the flag is inspected, in `infer_number`). -/
inductive Value where
  | null
  | bool (b : Bool)
  | num (isFloat : Bool) (val : Int)
  | str (s : String)
  | arr (elems : List Value)
  | obj (fields : List (String × Value))

/-- Strict character order by code point (agrees with Rust's `char`/byte
order used by `BTreeMap<String, _>`, since UTF-8 byte order coincides with
code-point order). -/
def chLt (c d : Char) : Bool := c.toNat < d.toNat

/-- Lexicographic strict order on character lists. -/
def strLtb : List Char → List Char → Bool
  | [], [] => false
  | [], _ :: _ => true
  | _ :: _, [] => false
  | c :: cs, d :: ds => chLt c d || (c == d && strLtb cs ds)

/-- Lexicographic strict order on strings; models the `Ord` instance Rust's
`BTreeMap<String, _>` sorts by. -/
def strLt (a b : String) : Bool := strLtb a.data b.data

theorem chLt_irrefl (c : Char) : chLt c c = false := by simp [chLt]

theorem chLt_asymm {c d : Char} (h : chLt c d = true) : chLt d c = false := by
  simp [chLt] at h ⊢; omega

theorem chLt_trans {a b c : Char} (h1 : chLt a b = true) (h2 : chLt b c = true) :
    chLt a c = true := by
  simp [chLt] at h1 h2 ⊢; omega

theorem char_eq_of_not_lt {c d : Char} (h1 : chLt c d = false) (h2 : chLt d c = false) :
    c = d := by
  simp [chLt] at h1 h2
  exact Char.eq_of_val_eq (UInt32.ext (Nat.le_antisymm h2 h1))

theorem chLt_of_ne_of_not_lt {c d : Char} (h1 : chLt c d = false) (h2 : c ≠ d) :
    chLt d c = true := by
  cases h3 : chLt d c with
  | true => rfl
  | false => exact absurd (char_eq_of_not_lt h1 h3) h2

theorem strLtb_irrefl : ∀ cs : List Char, strLtb cs cs = false := by
  intro cs
  induction cs with
  | nil => rfl
  | cons c cs ih => simp [strLtb, chLt_irrefl, ih]

theorem strLtb_trans : ∀ as bs cs : List Char,
    strLtb as bs = true → strLtb bs cs = true → strLtb as cs = true := by
  intro as
  induction as with
  | nil =>
    intro bs cs h1 h2
    cases bs with
    | nil => exact h2
    | cons b bs =>
      cases cs with
      | nil => simp [strLtb] at h2
      | cons c cs => rfl
  | cons a as ih =>
    intro bs cs h1 h2
    cases bs with
    | nil => simp [strLtb] at h1
    | cons b bs =>
      cases cs with
      | nil => simp [strLtb] at h2
      | cons c cs =>
        simp [strLtb] at h1 h2 ⊢
        rcases h1 with h1 | ⟨hab, h1⟩
        · rcases h2 with h2 | ⟨hbc, h2⟩
          · exact Or.inl (chLt_trans h1 h2)
          · subst hbc; exact Or.inl h1
        · subst hab
          rcases h2 with h2 | ⟨hbc, h2⟩
          · exact Or.inl h2
          · subst hbc; exact Or.inr ⟨rfl, ih bs cs h1 h2⟩

theorem strLtb_total : ∀ as bs : List Char,
    strLtb as bs = false → strLtb bs as = false → as = bs := by
  intro as
  induction as with
  | nil =>
    intro bs h1 _
    cases bs with
    | nil => rfl
    | cons b bs => simp [strLtb] at h1
  | cons a as ih =>
    intro bs h1 h2
    cases bs with
    | nil => simp [strLtb] at h2
    | cons b bs =>
      simp [strLtb] at h1 h2
      by_cases hab : a = b
      · subst hab
        have h1' := h1.2 rfl
        have h2' := h2.2 rfl
        rw [ih bs h1' h2']
      · exact absurd (char_eq_of_not_lt h1.1 h2.1) hab

theorem strLt_irrefl (a : String) : strLt a a = false := strLtb_irrefl a.data

theorem strLt_trans {a b c : String} (h1 : strLt a b = true) (h2 : strLt b c = true) :
    strLt a c = true := strLtb_trans a.data b.data c.data h1 h2

theorem strLt_total {a b : String} (h1 : strLt a b = false) (h2 : strLt b a = false) :
    a = b := by
  cases a with
  | mk da =>
    cases b with
    | mk db => exact congrArg String.mk (strLtb_total da db h1 h2)

/-- Strict order on `Nat` as a boolean, for the `BTreeMap<u64, Value>` model. -/
def natLt (a b : Nat) : Bool := decide (a < b)

theorem natLt_irrefl (a : Nat) : natLt a a = false := by simp [natLt]

theorem natLt_trans {a b c : Nat} (h1 : natLt a b = true) (h2 : natLt b c = true) :
    natLt a c = true := by simp [natLt] at h1 h2 ⊢; omega

theorem natLt_total {a b : Nat} (h1 : natLt a b = false) (h2 : natLt b a = false) :
    a = b := by simp [natLt] at h1 h2; omega

mutual

/-- Structural equality on `Value`, modelling `serde_json::Value`'s
`PartialEq` (deep structural comparison; maps compare by content). -/
def beqV : Value → Value → Bool
  | .null, .null => true
  | .bool a, .bool b => a == b
  | .num f1 n1, .num f2 n2 => (f1 == f2) && (n1 == n2)
  | .str a, .str b => a == b
  | .arr xs, .arr ys => beqL xs ys
  | .obj fs, .obj gs => beqF fs gs
  | _, _ => false

def beqL : List Value → List Value → Bool
  | [], [] => true
  | x :: xs, y :: ys => beqV x y && beqL xs ys
  | _, _ => false

def beqF : List (String × Value) → List (String × Value) → Bool
  | [], [] => true
  | (k1, v1) :: fs, (k2, v2) :: gs => (k1 == k2) && beqV v1 v2 && beqF fs gs
  | _, _ => false

end

/-- Structural induction principle for `Value` exposing membership in the
nested lists. -/
def Value.inductionOn {P : Value → Prop} (hnull : P .null) (hbool : ∀ b, P (.bool b))
    (hnum : ∀ f n, P (.num f n)) (hstr : ∀ s, P (.str s))
    (harr : ∀ xs, (∀ x ∈ xs, P x) → P (.arr xs))
    (hobj : ∀ fs, (∀ kv ∈ fs, P kv.2) → P (.obj fs)) : ∀ v, P v
  | .null => hnull
  | .bool b => hbool b
  | .num f n => hnum f n
  | .str s => hstr s
  | .arr xs => harr xs (fun x hx =>
      Value.inductionOn hnull hbool hnum hstr harr hobj x)
  | .obj fs => hobj fs (fun kv hkv =>
      Value.inductionOn hnull hbool hnum hstr harr hobj kv.2)
termination_by v => sizeOf v
decreasing_by
  · have := List.sizeOf_lt_of_mem hx
    simp only [Value.arr.sizeOf_spec]
    omega
  · have := List.sizeOf_lt_of_mem hkv
    obtain ⟨k, v⟩ := kv
    simp only [Value.obj.sizeOf_spec, Prod.mk.sizeOf_spec] at *
    omega

theorem beqL_iff (xs : List Value) (ih : ∀ x ∈ xs, ∀ b, beqV x b = true ↔ x = b) :
    ∀ ys, beqL xs ys = true ↔ xs = ys := by
  induction xs with
  | nil => intro ys; cases ys <;> simp [beqL]
  | cons x xs ihl =>
    intro ys
    cases ys with
    | nil => simp [beqL]
    | cons y ys =>
      simp only [beqL, Bool.and_eq_true]
      rw [ih x (by simp) y, ihl (fun a ha b => ih a (by simp [ha]) b) ys]
      simp

theorem beqF_iff (fs : List (String × Value))
    (ih : ∀ kv ∈ fs, ∀ b, beqV kv.2 b = true ↔ kv.2 = b) :
    ∀ gs, beqF fs gs = true ↔ fs = gs := by
  induction fs with
  | nil => intro gs; cases gs <;> simp [beqF]
  | cons f fs ihl =>
    intro gs
    obtain ⟨k1, v1⟩ := f
    cases gs with
    | nil => simp [beqF]
    | cons g gs =>
      obtain ⟨k2, v2⟩ := g
      simp only [beqF, Bool.and_eq_true]
      rw [ih (k1, v1) (by simp) v2, ihl (fun a ha b => ih a (by simp [ha]) b) gs]
      simp [beq_iff_eq, and_assoc]

theorem beqV_iff : ∀ a b : Value, beqV a b = true ↔ a = b := by
  intro a
  induction a using Value.inductionOn with
  | hnull => intro b; cases b <;> simp [beqV]
  | hbool x => intro b; cases b <;> simp [beqV]
  | hnum f n => intro b; cases b <;> simp [beqV]
  | hstr s => intro b; cases b <;> simp [beqV]
  | harr xs ih =>
    intro b
    cases b with
    | arr ys => rw [show beqV (.arr xs) (.arr ys) = beqL xs ys from rfl, beqL_iff xs ih ys]; simp
    | null => simp [beqV]
    | bool _ => simp [beqV]
    | num _ _ => simp [beqV]
    | str _ => simp [beqV]
    | obj _ => simp [beqV]
  | hobj fs ih =>
    intro b
    cases b with
    | obj gs => rw [show beqV (.obj fs) (.obj gs) = beqF fs gs from rfl, beqF_iff fs ih gs]; simp
    | null => simp [beqV]
    | bool _ => simp [beqV]
    | num _ _ => simp [beqV]
    | str _ => simp [beqV]
    | arr _ => simp [beqV]

instance : DecidableEq Value := fun a b => decidable_of_iff (beqV a b = true) (beqV_iff a b)

/-! ### Key-sorted association lists

These model `BTreeMap` (and `serde_json::Map` with the default `BTreeMap`
backend): an association list kept sorted by key, with unique keys.
`lookupKV` is map lookup, `insertKV` is `insert` (replaces the value when
the key is present, keeps the list sorted otherwise). -/

/-- Map lookup (first match; on a sorted-unique list, the only match). -/
def lookupKV {κ α : Type} [DecidableEq κ] : List (κ × α) → κ → Option α
  | [], _ => none
  | (k, v) :: rest, j => if j = k then some v else lookupKV rest j

/-- Sorted-map insert with respect to the strict order `lt`; replaces the
value if the key is already present. -/
def insertKV {κ α : Type} (lt : κ → κ → Bool) [DecidableEq κ] :
    List (κ × α) → κ → α → List (κ × α)
  | [], k, v => [(k, v)]
  | (k1, v1) :: rest, k, v =>
    if lt k k1 then (k, v) :: (k1, v1) :: rest
    else if k = k1 then (k, v) :: rest
    else (k1, v1) :: insertKV lt rest k v

/-- Keys strictly increasing: the representation invariant of the map. -/
def SortedKV {κ α : Type} (lt : κ → κ → Bool) (m : List (κ × α)) : Prop :=
  List.Pairwise (fun p q => lt p.1 q.1 = true) m

theorem lookupKV_insertKV_self {κ α : Type} (lt : κ → κ → Bool) [DecidableEq κ]
    (m : List (κ × α)) (k : κ) (v : α) : lookupKV (insertKV lt m k v) k = some v := by
  induction m with
  | nil => simp [insertKV, lookupKV]
  | cons p rest ih =>
    obtain ⟨k1, v1⟩ := p
    cases h1 : lt k k1 with
    | true => simp [insertKV, h1, lookupKV]
    | false =>
      by_cases h2 : k = k1
      · subst h2; simp [insertKV, h1, lookupKV]
      · simp [insertKV, h1, h2, lookupKV, ih]

theorem lookupKV_insertKV_ne {κ α : Type} (lt : κ → κ → Bool) [DecidableEq κ]
    (m : List (κ × α)) (k : κ) (v : α) (j : κ) (hj : j ≠ k) :
    lookupKV (insertKV lt m k v) j = lookupKV m j := by
  induction m with
  | nil => simp [insertKV, lookupKV, hj]
  | cons p rest ih =>
    obtain ⟨k1, v1⟩ := p
    cases h1 : lt k k1 with
    | true => simp [insertKV, h1, lookupKV, hj]
    | false =>
      by_cases h2 : k = k1
      · subst h2; simp [insertKV, h1, lookupKV, hj]
      · simp [insertKV, h1, h2, lookupKV, ih]

theorem mem_insertKV {κ α : Type} (lt : κ → κ → Bool) [DecidableEq κ]
    {m : List (κ × α)} {k : κ} {v : α} {p : κ × α} (h : p ∈ insertKV lt m k v) :
    p ∈ m ∨ p = (k, v) := by
  induction m with
  | nil => simp [insertKV] at h; exact Or.inr h
  | cons q rest ih =>
    obtain ⟨k1, v1⟩ := q
    cases h1 : lt k k1 with
    | true =>
      rw [insertKV] at h
      simp only [h1, if_true] at h
      rcases List.mem_cons.mp h with h | h
      · exact Or.inr h
      · exact Or.inl h
    | false =>
      by_cases h2 : k = k1
      · subst h2
        rw [insertKV] at h
        simp only [h1, Bool.false_eq_true, if_false, if_pos rfl] at h
        rcases List.mem_cons.mp h with h | h
        · exact Or.inr (by simp [h])
        · exact Or.inl (List.mem_cons_of_mem _ h)
      · rw [insertKV] at h
        simp only [h1, Bool.false_eq_true, if_false, h2] at h
        rcases List.mem_cons.mp h with h | h
        · exact Or.inl (by simp [h])
        · rcases ih h with h | h
          · exact Or.inl (List.mem_cons_of_mem _ h)
          · exact Or.inr h

theorem sorted_insertKV {κ α : Type} (lt : κ → κ → Bool) [DecidableEq κ]
    (htrans : ∀ a b c, lt a b = true → lt b c = true → lt a c = true)
    (htotal : ∀ a b, lt a b = false → lt b a = false → a = b)
    {m : List (κ × α)} (hs : SortedKV lt m) (k : κ) (v : α) :
    SortedKV lt (insertKV lt m k v) := by
  induction m with
  | nil => simp [insertKV, SortedKV]
  | cons p rest ih =>
    obtain ⟨k1, v1⟩ := p
    rw [SortedKV, List.pairwise_cons] at hs
    obtain ⟨hlo, hrest⟩ := hs
    cases h1 : lt k k1 with
    | true =>
      rw [SortedKV, insertKV]
      simp only [h1, if_true]
      rw [List.pairwise_cons]
      constructor
      · intro q hq
        rcases List.mem_cons.mp hq with h | h
        · subst h; exact h1
        · exact htrans _ _ _ h1 (hlo q h)
      · rw [List.pairwise_cons]; exact ⟨hlo, hrest⟩
    | false =>
      by_cases h2 : k = k1
      · subst h2
        rw [SortedKV, insertKV]
        simp only [h1, Bool.false_eq_true, if_false, eq_self_iff_true, if_true]
        rw [List.pairwise_cons]
        exact ⟨hlo, hrest⟩
      · rw [SortedKV, insertKV]
        simp only [h1, Bool.false_eq_true, if_false, h2]
        rw [List.pairwise_cons]
        constructor
        · intro q hq
          rcases mem_insertKV lt hq with h | h
          · exact hlo q h
          · subst h
            cases h3 : lt k1 k with
            | true => rfl
            | false => exact absurd (htotal _ _ h1 h3) h2
        · exact ih hrest

theorem lookupKV_some_mem {κ α : Type} [DecidableEq κ] {m : List (κ × α)} {k : κ} {v : α}
    (h : lookupKV m k = some v) : (k, v) ∈ m := by
  induction m with
  | nil => simp [lookupKV] at h
  | cons p rest ih =>
    obtain ⟨k1, v1⟩ := p
    by_cases h1 : k = k1
    · subst h1
      simp [lookupKV] at h
      simp [h]
    · simp [lookupKV, h1] at h
      exact List.mem_cons_of_mem _ (ih h)

theorem lookupKV_eq_none_of_lower {κ α : Type} (lt : κ → κ → Bool) [DecidableEq κ]
    (hirr : ∀ a, lt a a = false)
    (htrans : ∀ a b c, lt a b = true → lt b c = true → lt a c = true)
    {m : List (κ × α)} (hs : SortedKV lt m) {j : κ}
    (hj : ∀ p ∈ m, lt j p.1 = true) : lookupKV m j = none := by
  induction m with
  | nil => rfl
  | cons p rest ih =>
    obtain ⟨k1, v1⟩ := p
    have hlt : lt j k1 = true := hj (k1, v1) (by simp)
    have hne : j ≠ k1 := by
      intro h; subst h; rw [hirr j] at hlt; exact Bool.false_ne_true hlt
    rw [SortedKV, List.pairwise_cons] at hs
    simp only [lookupKV, hne, if_false]
    exact ih hs.2 (fun q hq => htrans _ _ _ hlt (hs.1 q hq))

theorem extKV {κ α : Type} (lt : κ → κ → Bool) [DecidableEq κ]
    (hirr : ∀ a, lt a a = false)
    (htrans : ∀ a b c, lt a b = true → lt b c = true → lt a c = true)
    (htotal : ∀ a b, lt a b = false → lt b a = false → a = b) :
    ∀ {m m' : List (κ × α)}, SortedKV lt m → SortedKV lt m' →
    (∀ k, lookupKV m k = lookupKV m' k) → m = m' := by
  intro m
  induction m with
  | nil =>
    intro m' _ hs' hl
    cases m' with
    | nil => rfl
    | cons p rest =>
      obtain ⟨k1, v1⟩ := p
      have := hl k1
      simp [lookupKV] at this
  | cons p rest ih =>
    intro m' hs hs' hl
    obtain ⟨k1, v1⟩ := p
    cases m' with
    | nil =>
      have := hl k1
      simp [lookupKV] at this
    | cons q rest' =>
      obtain ⟨k2, v2⟩ := q
      rw [SortedKV, List.pairwise_cons] at hs hs'
      by_cases hk : k1 = k2
      · subst hk
        have hv : v1 = v2 := by
          have := hl k1
          simp [lookupKV] at this
          exact this
        subst hv
        have htails : ∀ k, lookupKV rest k = lookupKV rest' k := by
          intro k
          by_cases hk1 : k = k1
          · subst hk1
            have hn1 : lookupKV rest k = none := by
              cases hres : lookupKV rest k with
              | none => rfl
              | some w =>
                have hmem := lookupKV_some_mem hres
                have := hs.1 (k, w) hmem
                rw [hirr k] at this
                exact absurd this Bool.false_ne_true
            have hn2 : lookupKV rest' k = none := by
              cases hres : lookupKV rest' k with
              | none => rfl
              | some w =>
                have hmem := lookupKV_some_mem hres
                have := hs'.1 (k, w) hmem
                rw [hirr k] at this
                exact absurd this Bool.false_ne_true
            rw [hn1, hn2]
          · have := hl k
            simp [lookupKV, hk1] at this
            exact this
        rw [ih hs.2 hs'.2 htails]
      · exfalso
        cases h12 : lt k1 k2 with
        | true =>
          have h1 : lookupKV ((k1, v1) :: rest) k1 = some v1 := by simp [lookupKV]
          have h2 : lookupKV ((k2, v2) :: rest') k1 = none := by
            apply lookupKV_eq_none_of_lower lt hirr htrans
            · rw [SortedKV, List.pairwise_cons]; exact hs'
            · intro q hq
              rcases List.mem_cons.mp hq with h | h
              · subst h; exact h12
              · exact htrans _ _ _ h12 (hs'.1 q h)
          rw [hl k1, h2] at h1
          exact Option.noConfusion h1
        | false =>
          cases h21 : lt k2 k1 with
          | true =>
            have h1 : lookupKV ((k2, v2) :: rest') k2 = some v2 := by simp [lookupKV]
            have h2 : lookupKV ((k1, v1) :: rest) k2 = none := by
              apply lookupKV_eq_none_of_lower lt hirr htrans
              · rw [SortedKV, List.pairwise_cons]; exact hs
              · intro q hq
                rcases List.mem_cons.mp hq with h | h
                · subst h; exact h21
                · exact htrans _ _ _ h21 (hs.1 q h)
            rw [← hl k2, h2] at h1
            exact Option.noConfusion h1
          | false => exact hk (htotal _ _ h12 h21)

/-! ### The structural hash

`src/lib.rs` deduplicates array-element fragments by hashing each inferred
fragment with `ValueWrapper`'s `Hash` impl over
`std::collections::hash_map::DefaultHasher` (SipHash-1-3 with fixed keys: a
deterministic function into 64 bits) and keying a `BTreeMap<u64, Value>` by
the result.  `hashFeed` mirrors the structure of `ValueWrapper::hash`: the
per-variant write sequence, sequential feeding for arrays, and the
XOR-combination of per-entry sub-hashes (each started from a fresh hasher)
for objects.  The byte-level SipHash mixing is modelled by the simpler
deterministic `mix`; every proof below relies only on determinism and the
64-bit codomain, which hold of the real hasher as well. -/

/-- One mixing step of the modelled hasher state. -/
def mix (state input : Nat) : Nat := (state * 1099511628211 + input + 1) % 2 ^ 64

/-- Initial state of a freshly created hasher (`DefaultHasher::new()`). -/
def hashSeed : Nat := 14695981039346656037

/-- Feeding a string into the hasher state; models `str`'s `Hash` impl
(the bytes of the string followed by a `0xFF` terminator byte). -/
def strFeed (state : Nat) (s : String) : Nat :=
  mix (s.data.foldl (fun st c => mix st c.toNat) state) 255

mutual

/-- Feeding one `Value` into the hasher state; mirrors `ValueWrapper::hash`
(src/lib.rs lines 14–48) arm by arm. -/
def hashFeed (state : Nat) : Value → Nat
  | .null => mix state 3221225473
  | .bool b => mix state (if b then 1 else 0)
  | .num isFloat n => mix (mix state (if isFloat then 2 else 1)) n.natAbs
  | .str s => strFeed state s
  | .arr xs => hashArr state xs
  | .obj fs => mix state (hashObjXor fs)

/-- Array elements are fed sequentially into the same hasher state. -/
def hashArr (state : Nat) : List Value → Nat
  | [] => state
  | x :: xs => hashArr (hashFeed state x) xs

/-- Object entries are hashed each with a fresh hasher (key then value) and
the per-entry results are XOR-combined (order-insensitive), as in the
source. -/
def hashObjXor : List (String × Value) → Nat
  | [] => 0
  | (k, v) :: rest => (hashFeed (strFeed hashSeed k) v) ^^^ hashObjXor rest

end

/-- The 64-bit hash of a fragment: `hasher.finish()` after feeding the
value into a fresh hasher. -/
def valueHash (v : Value) : Nat := hashFeed hashSeed v % 2 ^ 64

theorem valueHash_lt (v : Value) : valueHash v < 2 ^ 64 :=
  Nat.mod_lt _ (by positivity)

/-! ### Format detection

`infer_format` (src/lib.rs lines 242–251) tries three recognizers in fixed
order.  The recognizers themselves are external dependencies (`str::parse::<i32>`
from Rust's core library, `NaiveDate::parse_from_str` and
`DateTime::parse_from_rfc3339` from chrono); they are modelled below from
their documented behavior. -/

/-- Is `c` an ASCII digit. -/
def isDigitCh (c : Char) : Bool := decide (48 ≤ c.toNat) && decide (c.toNat ≤ 57)

/-- All characters are ASCII digits. -/
def allDigits (cs : List Char) : Bool := cs.all isDigitCh

/-- Decimal value of a digit string. -/
def digitsVal (cs : List Char) : Nat := cs.foldl (fun a c => a * 10 + (c.toNat - 48)) 0

/-- Models `str::parse::<i32>()`: an optional single `+`/`-` sign followed by
one or more ASCII digits and nothing else, with the signed value fitting in
`i32` (overflow is an error, so is an empty digit string). -/
def parseI32Ok (s : String) : Bool :=
  match s.data with
  | [] => false
  | c :: rest =>
    if c == '+' then !rest.isEmpty && allDigits rest && decide (digitsVal rest ≤ 2147483647)
    else if c == '-' then !rest.isEmpty && allDigits rest && decide (digitsVal rest ≤ 2147483648)
    else allDigits (c :: rest) && decide (digitsVal (c :: rest) ≤ 2147483647)

/-- Gregorian leap-year rule. -/
def isLeap (y : Nat) : Bool := (y % 4 == 0 && y % 100 != 0) || (y % 400 == 0)

/-- Length of month `m` in year `y` (proleptic Gregorian calendar). -/
def daysInMonth (y m : Nat) : Nat :=
  if m == 2 then (if isLeap y then 29 else 28)
  else if m == 4 || m == 6 || m == 9 || m == 11 then 30
  else 31

/-- Is `y-m-d` a valid proleptic Gregorian calendar date. -/
def validYMD (y m d : Nat) : Bool :=
  decide (1 ≤ m) && decide (m ≤ 12) && decide (1 ≤ d) && decide (d ≤ daysInMonth y m)

/-- Split a character list at every `'-'`. -/
def splitDash : List Char → List (List Char)
  | [] => [[]]
  | c :: rest =>
    if c == '-' then [] :: splitDash rest
    else
      match splitDash rest with
      | g :: gs => (c :: g) :: gs
      | [] => [[c]]

/-- Modelled from the chrono dependency: `NaiveDate::parse_from_str(s, "%Y-%m-%d")`.
Accepts exactly `YYYY-MM-DD` (four-digit year, two-digit month and day)
denoting a valid calendar date, consuming the entire input. -/
def parseDateOk (s : String) : Bool :=
  match splitDash s.data with
  | [ys, ms, ds] =>
    decide (ys.length = 4) && decide (ms.length = 2) && decide (ds.length = 2) &&
    allDigits ys && allDigits ms && allDigits ds &&
    validYMD (digitsVal ys) (digitsVal ms) (digitsVal ds)
  | _ => false

/-- Strip a leading run of ASCII digits. -/
def dropDigits : List Char → List Char
  | [] => []
  | c :: rest => if isDigitCh c then dropDigits rest else c :: rest

/-- A trailing RFC 3339 numeric UTC offset or `Z`/`z`. -/
def offsetOk : List Char → Bool
  | ['Z'] => true
  | ['z'] => true
  | sgn :: o1 :: o2 :: ':' :: o3 :: [o4] =>
    (sgn == '+' || sgn == '-') && allDigits [o1, o2, o3, o4] &&
    decide (digitsVal [o1, o2] ≤ 23) && decide (digitsVal [o3, o4] ≤ 59)
  | _ => false

/-- The part after the seconds: an optional fraction, then the offset. -/
def fracThenOffsetOk : List Char → Bool
  | '.' :: rest =>
    (match rest with
     | c :: _ => isDigitCh c
     | [] => false) && offsetOk (dropDigits rest)
  | rest => offsetOk rest

/-- Modelled from the chrono dependency: `DateTime::parse_from_rfc3339`.
Accepts `YYYY-MM-DD` then a `T`/`t`/space separator, `HH:MM:SS`, an optional
`.fraction`, and a `Z`/`z` or `±HH:MM` offset; the date must be a valid
calendar date, hour ≤ 23, minute ≤ 59, second ≤ 60 (leap second), offset
hour ≤ 23 and offset minute ≤ 59. -/
def parseRFC3339Ok (s : String) : Bool :=
  match s.data with
  | y1 :: y2 :: y3 :: y4 :: '-' :: mo1 :: mo2 :: '-' :: d1 :: d2 ::
      t :: h1 :: h2 :: ':' :: mi1 :: mi2 :: ':' :: s1 :: s2 :: rest =>
    allDigits [y1, y2, y3, y4, mo1, mo2, d1, d2, h1, h2, mi1, mi2, s1, s2] &&
    (t == 'T' || t == 't' || t == ' ') &&
    validYMD (digitsVal [y1, y2, y3, y4]) (digitsVal [mo1, mo2]) (digitsVal [d1, d2]) &&
    decide (digitsVal [h1, h2] ≤ 23) && decide (digitsVal [mi1, mi2] ≤ 59) &&
    decide (digitsVal [s1, s2] ≤ 60) &&
    fracThenOffsetOk rest
  | _ => false

/-- Models `infer_format` (src/lib.rs lines 242–251): the three recognizers
are tried in fixed order — `integer`, then `date`, then `date-time` —
stopping at the first success; no match yields no format. -/
def inferFormat (s : String) : Option String :=
  if parseI32Ok s then some "integer"
  else if parseDateOk s then some "date"
  else if parseRFC3339Ok s then some "date-time"
  else none

/-! ### The inference pipeline (src/lib.rs)

Fragments are themselves `Value`s, as in the source.  `json!` object
literals are written directly as their key-sorted association lists (the
default `serde_json::Map` is a `BTreeMap`, so keys are sorted); all map
updates go through `insertKV strLt`, the `BTreeMap::insert` model.
Panicking operations (`unwrap`) are modelled in `Option`: a `none` result
is a panic. -/

/-- Models `serde_json::Value::get(key)`: `Some` only on objects that have
the key. -/
def Value.get (v : Value) (k : String) : Option Value :=
  match v with
  | .obj fs => lookupKV fs k
  | _ => none

/-- The elements of a `required` array, which must all be strings
(`as_str().unwrap()` panics otherwise). -/
def reqStrings : List Value → Option (List String)
  | [] => some []
  | .str s :: rest => (reqStrings rest).map (s :: ·)
  | _ => none

/-- Models `collect_required` (src/lib.rs lines 189–199): read the
fragment's `required` array (`get`/`as_array` `unwrap`s panic when absent
or not an array), take its elements as strings, and collect them into a
hash set (modelled as a deduplicated list; the real `HashSet` iteration
order is arbitrary, the model fixes one). -/
def collectRequired (item : Value) : Option (List String) :=
  match item.get "required" with
  | some (.arr xs) => (reqStrings xs).map List.dedup
  | _ => none

/-- Models the `data.iter().all(|item| item.get("type").unwrap() == "object")`
check of `try_merge`, including its short-circuiting: a missing `type` key
panics (`none`) only if reached. -/
def allTypesObject : List Value → Option Bool
  | [] => some true
  | item :: rest =>
    match item.get "type" with
    | none => none
    | some t => if t = .str "object" then allTypesObject rest else some false

/-- Models the `properties_types` update for one observed property:
`entry(name).or_insert_with(Vec::new)` then push the schema if the vector
does not already contain a structurally equal one. -/
def updateEntry (m : List (String × List Value)) (name : String) (schema : Value) :
    List (String × List Value) :=
  match lookupKV m name with
  | some ts => if schema ∈ ts then m else insertKV strLt m name (ts ++ [schema])
  | none => insertKV strLt m name [schema]

/-- Models the main loop of `try_merge` (src/lib.rs lines 169–180): for each
fragment, fold its `properties` entries into `properties_types` and append
its required set to `known_required`.  `get("properties")`/`as_object`
`unwrap`s panic (`none`) when `properties` is absent or not an object. -/
def mergeLoop : List Value → List (String × List Value) → List (List String) →
    Option (List (String × List Value) × List (List String))
  | [], pt, kr => some (pt, kr)
  | item :: rest, pt, kr =>
    match item.get "properties" with
    | some (.obj fields) =>
      match collectRequired item with
      | some req => mergeLoop rest (fields.foldl (fun acc p => updateEntry acc p.1 p.2) pt) (kr ++ [req])
      | none => none
    | _ => none

/-- Models `fill_required` (src/lib.rs lines 203–214): keep the keys of the
first required set that occur in every required set; insert them as the
`required` array only when that common set is non-empty. -/
def fillRequired (m : List (String × Value)) (knownRequired : List (List String)) :
    List (String × Value) :=
  match knownRequired with
  | [] => m
  | first :: _ =>
    let common := first.filter (fun k => knownRequired.all (fun s => s.contains k))
    if common.isEmpty then m
    else insertKV strLt m "required" (.arr (common.map Value.str))

/-- A collected per-property type list becomes either the single fragment
itself or an `anyOf` of the list (`fill_properties`, src/lib.rs lines
224–231). -/
def mergePropValue : List Value → Value
  | [t] => t
  | ts => .obj [("anyOf", .arr ts)]

/-- Models `fill_properties` (src/lib.rs lines 218–234): get or create the
`properties` object of the merged map (`as_object_mut().unwrap()` panics if
a non-object `properties` is already present) and insert every collected
property. -/
def fillProperties (m : List (String × Value)) (pt : List (String × List Value)) :
    Option (List (String × Value)) :=
  let go := fun (fs : List (String × Value)) =>
    insertKV strLt m "properties"
      (.obj (pt.foldl (fun acc p => insertKV strLt acc p.1 (mergePropValue p.2)) fs))
  match lookupKV m "properties" with
  | some (.obj fs) => some (go fs)
  | some _ => none
  | none => some (go [])

/-- Models `try_merge` (src/lib.rs lines 161–187): `some none` is the
source's `None` ("not mergeable", some fragment is not object-kind),
`some (some merged)` is `Some(merged)`, and `none` models a panic in one of
the internal `unwrap`s. -/
def tryMerge (data : List Value) : Option (Option Value) :=
  match allTypesObject data with
  | none => none
  | some false => some none
  | some true =>
    match mergeLoop data [] [] with
    | none => none
    | some (pt, kr) =>
      match fillProperties (fillRequired [("type", Value.str "object")] kr) pt with
      | none => none
      | some m2 => some (some (.obj m2))

/-- The sequential branch of `infer_array` (src/lib.rs lines 120–130):
collect `(hash(fragment), fragment)` pairs into a `BTreeMap<u64, Value>`. -/
def buildSeq (frags : List Value) : List (Nat × Value) :=
  frags.foldl (fun m f => insertKV natLt m (valueHash f) f) []

/-- The parallel branch of `infer_array` (src/lib.rs lines 110–119): rayon's
`collect` into a `BTreeMap` produces the same map as the sequential fold
(same pairs, index order preserved), so the body is identical. -/
def buildPar (frags : List Value) : List (Nat × Value) :=
  frags.foldl (fun m f => insertKV natLt m (valueHash f) f) []

/-- The tail of `infer_array` (src/lib.rs lines 132–140): one distinct
fragment becomes `items` verbatim; otherwise try the object merge; otherwise
emit an `anyOf` union of the distinct fragments.
`json!({"type":"array"})` with `data["items"] = x` is the sorted map
`[("items", x), ("type", "array")]`. -/
def finishArray (itemsMap : List (Nat × Value)) : Option Value :=
  let vals := itemsMap.map Prod.snd
  match vals with
  | [v] => some (.obj [("items", v), ("type", .str "array")])
  | _ =>
    match tryMerge vals with
    | none => none
    | some (some merged) => some (.obj [("items", merged), ("type", .str "array")])
    | some none => some (.obj [("items", .obj [("anyOf", .arr vals)]), ("type", .str "array")])

/-- Models `infer_array` (src/lib.rs lines 107–141) after the per-element
fragments have been inferred: build the hash-keyed map — in parallel when
the element count exceeds 8, sequentially otherwise — then finish. -/
def inferArrayCore (frags : List Value) : Option Value :=
  finishArray (if frags.length > 8 then buildPar frags else buildSeq frags)

/-- Models `infer_number` (src/lib.rs lines 98–104): classification reads
only the `is_f64` flag of the number. -/
def inferNumber (isFloat : Bool) : Value :=
  if isFloat then .obj [("type", .str "number")] else .obj [("type", .str "integer")]

/-- Models `infer_string` (src/lib.rs lines 88–96): always a string
fragment; a `format` field is added when detection is enabled and a
recognizer matched. -/
def inferString (df : Bool) (s : String) : Value :=
  let base := [("type", Value.str "string")]
  if df then
    match inferFormat s with
    | some f => .obj (insertKV strLt base "format" (.str f))
    | none => .obj base
  else .obj base

/-- Models `infer_object` (src/lib.rs lines 144–152) after the per-value
fragments have been inferred: `required` lists every key of this instance
(in map iteration order) and `properties` maps each key to its fragment;
`json!` emits the three keys sorted. -/
def inferObjectCore (pairs : List (String × Value)) : Value :=
  .obj [("properties", .obj (pairs.foldl (fun acc p => insertKV strLt acc p.1 p.2) [])),
        ("required", .arr (pairs.map (fun p => Value.str p.1))),
        ("type", .str "object")]

mutual

/-- Models the private `_infer` (src/lib.rs lines 77–86): the recursive
type mapper. -/
def inferValue (df : Bool) : Value → Option Value
  | .null => some (.obj [("type", .str "null")])
  | .bool _ => some (.obj [("type", .str "boolean")])
  | .num isFloat _ => some (inferNumber isFloat)
  | .str s => some (inferString df s)
  | .arr elems =>
    match inferList df elems with
    | some frags => inferArrayCore frags
    | none => none
  | .obj fields =>
    match inferFields df fields with
    | some pairs => some (inferObjectCore pairs)
    | none => none

/-- Inference of each array element in order (the map inside
`infer_array`). -/
def inferList (df : Bool) : List Value → Option (List Value)
  | [] => some []
  | e :: rest =>
    match inferValue df e, inferList df rest with
    | some f, some fs => some (f :: fs)
    | _, _ => none

/-- Inference of each object property value in order (the loop inside
`infer_object`). -/
def inferFields (df : Bool) : List (String × Value) → Option (List (String × Value))
  | [] => some []
  | (k, v) :: rest =>
    match inferValue df v, inferFields df rest with
    | some f, some fs => some ((k, f) :: fs)
    | _, _ => none

end

/-- Models the public `JSONSchema::infer` (src/lib.rs lines 68–75) for a
`JSONSchema` built with `new` (so `detect_format` defaults to `true`) and
optionally reconfigured by the `detect_format` builder: run `_infer`, then
insert the draft-07 `$schema` marker into the resulting object
(`as_object_mut().unwrap()` panics on a non-object result). -/
def inferWith (df : Bool) (input : Value) : Option Value :=
  match inferValue df input with
  | some (.obj fields) =>
    some (.obj (insertKV strLt fields "$schema" (.str "http://json-schema.org/draft-07/schema#")))
  | some _ => none
  | none => none

/-- Models the public shortcut `infer` (src/lib.rs lines 156–158). -/
def infer (input : Value) : Option Value := inferWith true input

/-! ### Well-formedness of inferred fragments

Every fragment produced by `_infer` is a JSON object carrying a `type`
field, and an object-kind fragment also carries a `required` array of
strings and a `properties` object.  This is exactly what the `unwrap`s in
`infer`, `try_merge` and `collect_required` rely on. -/

/-- Is the value a string. -/
def isStr : Value → Bool
  | .str _ => true
  | _ => false

/-- Is the value an array of strings. -/
def isStrArr : Value → Bool
  | .arr xs => xs.all isStr
  | _ => false

/-- The field map has a `required` entry that is an array of strings. -/
def hasReqStrs (fields : List (String × Value)) : Bool :=
  match lookupKV fields "required" with
  | some r => isStrArr r
  | none => false

/-- The field map has a `properties` entry that is an object. -/
def hasPropsObj (fields : List (String × Value)) : Bool :=
  match lookupKV fields "properties" with
  | some (.obj _) => true
  | _ => false

/-- Shallow well-formedness of a fragment: it is an object with a `type`
field, and if the type is `object` it has a `required` array of strings and
a `properties` object.  (Only this much is needed by the merge engine,
which treats the property schemas themselves opaquely.) -/
def ShallowWF (v : Value) : Bool :=
  match v with
  | .obj fields =>
    match lookupKV fields "type" with
    | some t => if t = .str "object" then hasReqStrs fields && hasPropsObj fields else true
    | none => false
  | _ => false

theorem shallowWF_obj {v : Value} (h : ShallowWF v = true) :
    ∃ fields, v = .obj fields ∧ ∃ t, lookupKV fields "type" = some t := by
  cases v with
  | obj fields =>
    refine ⟨fields, rfl, ?_⟩
    rw [ShallowWF] at h
    cases ht : lookupKV fields "type" with
    | none => rw [ht] at h; exact absurd h (by simp)
    | some t => exact ⟨t, rfl⟩
  | null => exact absurd h (by simp [ShallowWF])
  | bool b => exact absurd h (by simp [ShallowWF])
  | num f n => exact absurd h (by simp [ShallowWF])
  | str s => exact absurd h (by simp [ShallowWF])
  | arr xs => exact absurd h (by simp [ShallowWF])

theorem reqStrings_total {xs : List Value} (h : xs.all isStr = true) :
    ∃ ss, reqStrings xs = some ss := by
  induction xs with
  | nil => exact ⟨[], rfl⟩
  | cons x rest ih =>
    simp only [List.all_cons, Bool.and_eq_true] at h
    obtain ⟨hx, hrest⟩ := h
    obtain ⟨ss, hss⟩ := ih hrest
    cases x with
    | str s => exact ⟨s :: ss, by simp [reqStrings, hss]⟩
    | null => exact absurd hx (by simp [isStr])
    | bool b => exact absurd hx (by simp [isStr])
    | num f n => exact absurd hx (by simp [isStr])
    | arr a => exact absurd hx (by simp [isStr])
    | obj o => exact absurd hx (by simp [isStr])

theorem reqStrings_mem {xs : List Value} {ss : List String} (h : reqStrings xs = some ss) :
    ∀ s, s ∈ ss ↔ Value.str s ∈ xs := by
  induction xs generalizing ss with
  | nil =>
    obtain rfl : ([] : List String) = ss := Option.some.inj h
    simp
  | cons x rest ih =>
    cases x with
    | str s0 =>
      rw [reqStrings] at h
      cases hrest : reqStrings rest with
      | none => rw [hrest] at h; exact absurd h (by simp)
      | some ss0 =>
        rw [hrest] at h
        have h2 : s0 :: ss0 = ss := by simpa using h
        subst h2
        intro s
        simp [ih hrest s]
    | null => exact absurd h (by simp [reqStrings])
    | bool b => exact absurd h (by simp [reqStrings])
    | num f n => exact absurd h (by simp [reqStrings])
    | arr a => exact absurd h (by simp [reqStrings])
    | obj o => exact absurd h (by simp [reqStrings])

/-- An object-kind well-formed fragment has everything the merge engine
unwraps: a `properties` object and a collectable `required` set. -/
theorem wf_object_parts {v : Value} (hwf : ShallowWF v = true)
    (hty : v.get "type" = some (.str "object")) :
    (∃ pf, v.get "properties" = some (.obj pf)) ∧
    (∃ req, collectRequired v = some req ∧
      ∃ xs, v.get "required" = some (.arr xs) ∧ ∃ ss, reqStrings xs = some ss ∧ req = ss.dedup) := by
  obtain ⟨fields, rfl, t, ht⟩ := shallowWF_obj hwf
  simp only [Value.get] at hty ⊢
  rw [ht] at hty
  have htt : t = .str "object" := Option.some.inj hty
  subst htt
  simp only [ShallowWF, ht, eq_self_iff_true, if_true] at hwf
  rw [Bool.and_eq_true] at hwf
  obtain ⟨hreq, hprop⟩ := hwf
  constructor
  · rw [hasPropsObj] at hprop
    cases hp : lookupKV fields "properties" with
    | none => rw [hp] at hprop; simp at hprop
    | some p =>
      rw [hp] at hprop
      cases p with
      | obj pf => exact ⟨pf, rfl⟩
      | null => simp at hprop
      | bool b => simp at hprop
      | num f n => simp at hprop
      | str s => simp at hprop
      | arr a => simp at hprop
  · rw [hasReqStrs] at hreq
    cases hr : lookupKV fields "required" with
    | none => rw [hr] at hreq; simp at hreq
    | some r =>
      rw [hr] at hreq
      cases r with
      | arr xs =>
        have hall : xs.all isStr = true := by simpa [isStrArr] using hreq
        obtain ⟨ss, hss⟩ := reqStrings_total hall
        refine ⟨ss.dedup, ?_, xs, rfl, ss, hss, rfl⟩
        rw [collectRequired]
        simp only [Value.get]
        rw [hr]
        simp [hss]
      | null => simp [isStrArr] at hreq
      | bool b => simp [isStrArr] at hreq
      | num f n => simp [isStrArr] at hreq
      | str s => simp [isStrArr] at hreq
      | obj o => simp [isStrArr] at hreq

theorem allTypesObject_wf {data : List Value} (hwf : ∀ f ∈ data, ShallowWF f = true) :
    ∃ b, allTypesObject data = some b ∧
      (b = true ↔ ∀ f ∈ data, f.get "type" = some (.str "object")) := by
  induction data with
  | nil => exact ⟨true, rfl, by simp⟩
  | cons item rest ih =>
    obtain ⟨fields, rfl, t, ht⟩ := shallowWF_obj (hwf item (by simp))
    have hget : (Value.obj fields).get "type" = some t := by simp only [Value.get]; exact ht
    obtain ⟨b, hb, hiff⟩ := ih (fun f hf => hwf f (by simp [hf]))
    by_cases htt : t = Value.str "object"
    · subst htt
      refine ⟨b, ?_, ?_⟩
      · simp only [allTypesObject, hget, if_true]
        exact hb
      · rw [hiff]
        constructor
        · intro hall f hf
          rcases List.mem_cons.mp hf with h | h
          · subst h; exact hget
          · exact hall f h
        · intro hall f hf
          exact hall f (List.mem_cons_of_mem _ hf)
    · refine ⟨false, ?_, ?_⟩
      · simp only [allTypesObject, hget]
        rw [if_neg htt]
      · simp only [Bool.false_eq_true, false_iff]
        intro hall
        have := hall (Value.obj fields) (by simp)
        rw [hget] at this
        exact htt (Option.some.inj this)

/-- The `properties` map of a fragment (empty for the unreachable
non-object case). -/
def propsOf (item : Value) : List (String × Value) :=
  match item.get "properties" with
  | some (.obj fields) => fields
  | _ => []

/-- All `(name, schema)` pairs observed across the fragments, in pass
order: this is exactly the sequence of `updateEntry` calls `try_merge`
makes. -/
def allProps (data : List Value) : List (String × Value) :=
  data.foldr (fun item acc => propsOf item ++ acc) []

/-- The required sets of the fragments, in order (`none` when some
`collect_required` would panic). -/
def reqsOf : List Value → Option (List (List String))
  | [] => some []
  | item :: rest =>
    match collectRequired item, reqsOf rest with
    | some r, some rs => some (r :: rs)
    | _, _ => none

theorem mergeLoop_char :
    ∀ {data : List Value} {pt kr out}, mergeLoop data pt kr = some out →
    ∃ reqs, reqsOf data = some reqs ∧
      out = ((allProps data).foldl (fun acc p => updateEntry acc p.1 p.2) pt, kr ++ reqs) := by
  intro data
  induction data with
  | nil =>
    intro pt kr out h
    rw [mergeLoop] at h
    exact ⟨[], rfl, by simp [allProps, (Option.some.inj h).symm]⟩
  | cons item rest ih =>
    intro pt kr out h
    rw [mergeLoop] at h
    cases hp : item.get "properties" with
    | none => rw [hp] at h; exact absurd h (by simp)
    | some p =>
      rw [hp] at h
      cases p with
      | obj fields =>
        cases hc : collectRequired item with
        | none => rw [hc] at h; exact absurd h (by simp)
        | some req =>
          rw [hc] at h
          obtain ⟨reqs, hreqs, hout⟩ := ih h
          refine ⟨req :: reqs, ?_, ?_⟩
          · rw [reqsOf, hc, hreqs]
          · rw [hout]
            have hprops : allProps (item :: rest) = fields ++ allProps rest := by
              show propsOf item ++ allProps rest = _
              rw [propsOf, hp]
            rw [hprops, List.foldl_append]
            simp
      | null => exact absurd h (by simp)
      | bool b => exact absurd h (by simp)
      | num f n => exact absurd h (by simp)
      | str s => exact absurd h (by simp)
      | arr a => exact absurd h (by simp)

theorem mergeLoop_total :
    ∀ {data : List Value},
    (∀ f ∈ data, ShallowWF f = true ∧ f.get "type" = some (.str "object")) →
    ∀ pt kr, ∃ out, mergeLoop data pt kr = some out := by
  intro data
  induction data with
  | nil => exact fun _ pt kr => ⟨(pt, kr), rfl⟩
  | cons item rest ih =>
    intro h pt kr
    obtain ⟨hwf, hty⟩ := h item (by simp)
    obtain ⟨⟨pf, hpf⟩, req, hreq, -⟩ := wf_object_parts hwf hty
    obtain ⟨out, hout⟩ := ih (fun f hf => h f (List.mem_cons_of_mem _ hf))
      (pf.foldl (fun acc p => updateEntry acc p.1 p.2) pt) (kr ++ [req])
    exact ⟨out, by rw [mergeLoop, hpf, hreq]; exact hout⟩

theorem fillRequired_lookup_other (m : List (String × Value)) (kr : List (List String))
    (k : String) (hk : k ≠ "required") :
    lookupKV (fillRequired m kr) k = lookupKV m k := by
  cases kr with
  | nil => rfl
  | cons first rest =>
    rw [fillRequired]
    split
    · rfl
    · exact lookupKV_insertKV_ne strLt m "required" _ k hk

theorem fillProperties_of_absent {m : List (String × Value)}
    (h : lookupKV m "properties" = none) (pt : List (String × List Value)) :
    fillProperties m pt = some (insertKV strLt m "properties"
      (.obj (pt.foldl (fun acc p => insertKV strLt acc p.1 (mergePropValue p.2)) []))) := by
  rw [fillProperties, h]

theorem lookupKV_base_type :
    lookupKV [("type", Value.str "object")] "properties" = none ∧
    lookupKV [("type", Value.str "object")] "required" = none ∧
    lookupKV [("type", Value.str "object")] "type" = some (.str "object") := by
  refine ⟨?_, ?_, ?_⟩ <;> simp [lookupKV]

/-- Totality of `try_merge` on well-formed fragments, together with the
shape of a successful merge. -/
theorem tryMerge_total {data : List Value} (hwf : ∀ f ∈ data, ShallowWF f = true) :
    ∃ o, tryMerge data = some o ∧
      ((o = none ↔ ∃ f ∈ data, f.get "type" ≠ some (.str "object")) ∧
       ∀ m, o = some m → ∃ mf, m = .obj mf ∧ lookupKV mf "type" = some (.str "object")) := by
  obtain ⟨b, hb, hiff⟩ := allTypesObject_wf hwf
  cases b with
  | false =>
    refine ⟨none, ?_, ?_, ?_⟩
    · rw [tryMerge, hb]
    · constructor
      · intro _
        by_contra hcon
        push_neg at hcon
        exact Bool.false_ne_true (hiff.mpr hcon)
      · intro _; rfl
    · intro m hm; exact absurd hm (by simp)
  | true =>
    have hall := hiff.mp rfl
    obtain ⟨out, hout⟩ := mergeLoop_total (fun f hf => ⟨hwf f hf, hall f hf⟩) [] []
    obtain ⟨pt, kr⟩ := out
    have habs : lookupKV (fillRequired [("type", Value.str "object")] kr) "properties" = none := by
      rw [fillRequired_lookup_other _ _ _ (by decide)]
      exact lookupKV_base_type.1
    have hfp := fillProperties_of_absent habs pt
    refine ⟨some (.obj (insertKV strLt (fillRequired [("type", Value.str "object")] kr)
      "properties" (.obj (pt.foldl (fun acc p => insertKV strLt acc p.1 (mergePropValue p.2)) [])))),
      ?_, ?_, ?_⟩
    · simp only [tryMerge, hb, hout, hfp]
    · constructor
      · intro h; exact absurd h (by simp)
      · rintro ⟨f, hf, hne⟩; exact absurd (hall f hf) hne
    · intro m hm
      obtain rfl := Option.some.inj hm
      refine ⟨_, rfl, ?_⟩
      rw [lookupKV_insertKV_ne strLt _ _ _ _ (by decide)]
      rw [fillRequired_lookup_other _ _ _ (by decide)]
      exact lookupKV_base_type.2.2

/-! ### Properties of the hash-keyed element map -/

/-- The insertion step of `infer_array`'s collect. -/
def insHash (m : List (Nat × Value)) (f : Value) : List (Nat × Value) :=
  insertKV natLt m (valueHash f) f

theorem buildSeq_eq_foldl (frags : List Value) : buildSeq frags = frags.foldl insHash [] := rfl

theorem buildPar_eq_buildSeq (frags : List Value) : buildPar frags = buildSeq frags := rfl

theorem mem_foldl_insHash :
    ∀ {frags : List Value} {acc : List (Nat × Value)} {p : Nat × Value},
    p ∈ frags.foldl insHash acc → p ∈ acc ∨ (p.2 ∈ frags ∧ p.1 = valueHash p.2) := by
  intro frags
  induction frags with
  | nil => intro acc p h; exact Or.inl h
  | cons f rest ih =>
    intro acc p h
    rcases ih h with h2 | h2
    · rcases mem_insertKV natLt h2 with h3 | h3
      · exact Or.inl h3
      · subst h3; exact Or.inr ⟨by simp, rfl⟩
    · exact Or.inr ⟨List.mem_cons_of_mem _ h2.1, h2.2⟩

theorem mem_buildSeq {frags : List Value} {p : Nat × Value} (h : p ∈ buildSeq frags) :
    p.2 ∈ frags ∧ p.1 = valueHash p.2 := by
  rcases mem_foldl_insHash h with h2 | h2
  · exact absurd h2 (by simp)
  · exact h2

theorem sorted_foldl_insHash :
    ∀ {frags : List Value} {acc : List (Nat × Value)}, SortedKV natLt acc →
    SortedKV natLt (frags.foldl insHash acc) := by
  intro frags
  induction frags with
  | nil => intro acc h; exact h
  | cons f rest ih =>
    intro acc h
    exact ih (sorted_insertKV natLt (fun a b c => natLt_trans) (fun a b => natLt_total) h _ _)

theorem sorted_buildSeq (frags : List Value) : SortedKV natLt (buildSeq frags) :=
  sorted_foldl_insHash (by simp [SortedKV])

/-- The last fragment in the list whose hash is `k` (the value that survives
the repeated `BTreeMap` inserts at key `k`). -/
def findLastHash (frags : List Value) (k : Nat) : Option Value :=
  frags.foldl (fun r f => if valueHash f = k then some f else r) none

theorem findLastHash_seed (k : Nat) :
    ∀ (frags : List Value) (r : Option Value),
    frags.foldl (fun r f => if valueHash f = k then some f else r) r =
      match findLastHash frags k with
      | some g => some g
      | none => r := by
  intro frags
  induction frags with
  | nil => intro r; rfl
  | cons f rest ih =>
    intro r
    show rest.foldl _ (if valueHash f = k then some f else r) = _
    rw [ih]
    have hrhs : findLastHash (f :: rest) k =
        match findLastHash rest k with
        | some g => some g
        | none => (if valueHash f = k then some f else none) := by
      show rest.foldl _ (if valueHash f = k then some f else none) = _
      rw [ih]
    rw [hrhs]
    cases findLastHash rest k with
    | some g => rfl
    | none =>
      by_cases h : valueHash f = k
      · simp [h]
      · simp [h]

theorem lookup_foldl_insHash (k : Nat) :
    ∀ (frags : List Value) (acc : List (Nat × Value)),
    lookupKV (frags.foldl insHash acc) k =
      match findLastHash frags k with
      | some f => some f
      | none => lookupKV acc k := by
  intro frags
  induction frags with
  | nil => intro acc; rfl
  | cons f rest ih =>
    intro acc
    show lookupKV (rest.foldl insHash (insHash acc f)) k = _
    rw [ih]
    have hrhs : findLastHash (f :: rest) k =
        match findLastHash rest k with
        | some g => some g
        | none => (if valueHash f = k then some f else none) := by
      show rest.foldl _ (if valueHash f = k then some f else none) = _
      rw [findLastHash_seed]
    rw [hrhs]
    cases findLastHash rest k with
    | some g => rfl
    | none =>
      by_cases h : valueHash f = k
      · rw [if_pos h]
        show lookupKV (insertKV natLt acc (valueHash f) f) k = some f
        rw [← h, lookupKV_insertKV_self]
      · rw [if_neg h]
        show lookupKV (insertKV natLt acc (valueHash f) f) k = lookupKV acc k
        exact lookupKV_insertKV_ne natLt acc _ f k (fun he => h (he ▸ rfl))

theorem findLastHash_some :
    ∀ {frags : List Value} {k : Nat} {f : Value},
    findLastHash frags k = some f → f ∈ frags ∧ valueHash f = k := by
  have haux : ∀ (frags : List Value) (k : Nat) (r : Option Value) (f : Value),
      frags.foldl (fun r f => if valueHash f = k then some f else r) r = some f →
      (f ∈ frags ∧ valueHash f = k) ∨ r = some f := by
    intro frags
    induction frags with
    | nil => intro k r f h; exact Or.inr h
    | cons g rest ih =>
      intro k r f h
      rcases ih k _ f h with h2 | h2
      · exact Or.inl ⟨List.mem_cons_of_mem _ h2.1, h2.2⟩
      · have h2' : (if valueHash g = k then some g else r) = some f := h2
        by_cases hg : valueHash g = k
        · rw [if_pos hg] at h2'
          obtain rfl := Option.some.inj h2'
          exact Or.inl ⟨by simp, hg⟩
        · rw [if_neg hg] at h2'
          exact Or.inr h2'
  intro frags k f h
  rcases haux frags k none f h with h2 | h2
  · exact h2
  · exact absurd h2 (by simp)

theorem findLastHash_isSome {frags : List Value} {k : Nat} {f : Value}
    (hf : f ∈ frags) (hk : valueHash f = k) : ∃ g, findLastHash frags k = some g := by
  induction frags with
  | nil => exact absurd hf (by simp)
  | cons g rest ih =>
    rcases List.mem_cons.mp hf with h | h
    · subst h
      have : findLastHash (f :: rest) k =
          match findLastHash rest k with
          | some g => some g
          | none => (if valueHash f = k then some f else none) := by
        show rest.foldl _ (if valueHash f = k then some f else none) = _
        rw [findLastHash_seed]
      rw [this]
      cases findLastHash rest k with
      | some g2 => exact ⟨g2, rfl⟩
      | none => exact ⟨f, by rw [if_pos hk]⟩
    · obtain ⟨g2, hg2⟩ := ih h
      have : findLastHash (g :: rest) k =
          match findLastHash rest k with
          | some g2 => some g2
          | none => (if valueHash g = k then some g else none) := by
        show rest.foldl _ (if valueHash g = k then some g else none) = _
        rw [findLastHash_seed]
      rw [this, hg2]
      exact ⟨g2, rfl⟩

/-- The fragment list has no hash collisions between structurally distinct
members.  This always holds when all members are structurally equal, and it
is the condition under which the hash-keyed dedup of `infer_array` agrees
with deduplication by structural equality. -/
def hashCF (l : List Value) : Bool :=
  l.all (fun f => l.all (fun g => !(decide (valueHash f = valueHash g)) || decide (f = g)))

theorem hashCF_iff (l : List Value) :
    hashCF l = true ↔ ∀ f ∈ l, ∀ g ∈ l, valueHash f = valueHash g → f = g := by
  simp [hashCF, List.all_eq_true, Bool.or_eq_true, imp_iff_not_or]

theorem hashCF_perm {l l' : List Value} (hp : l.Perm l') (h : hashCF l = true) :
    hashCF l' = true := by
  rw [hashCF_iff] at h ⊢
  intro f hf g hg
  exact h f (hp.mem_iff.mpr hf) g (hp.mem_iff.mpr hg)

theorem lookup_buildSeq_cf {l : List Value} (hcf : hashCF l = true) (k : Nat) (f : Value) :
    lookupKV (buildSeq l) k = some f ↔ (f ∈ l ∧ valueHash f = k) := by
  rw [buildSeq_eq_foldl, lookup_foldl_insHash]
  constructor
  · intro h
    cases hA : findLastHash l k with
    | none => rw [hA] at h; exact absurd h (by simp [lookupKV])
    | some g =>
      rw [hA] at h
      obtain rfl := Option.some.inj h
      exact findLastHash_some hA
  · rintro ⟨hf, hk⟩
    obtain ⟨g, hg⟩ := findLastHash_isSome hf hk
    obtain ⟨hgmem, hghash⟩ := findLastHash_some hg
    have : g = f := (hashCF_iff l).mp hcf g hgmem f hf (by rw [hghash, hk])
    rw [hg, this]

theorem lookup_buildSeq_none {l : List Value} (k : Nat)
    (h : ∀ f ∈ l, valueHash f ≠ k) : lookupKV (buildSeq l) k = none := by
  rw [buildSeq_eq_foldl, lookup_foldl_insHash]
  cases hA : findLastHash l k with
  | none => rfl
  | some g =>
    obtain ⟨hgmem, hghash⟩ := findLastHash_some hA
    exact absurd hghash (h g hgmem)

theorem buildSeq_perm {l l' : List Value} (hcf : hashCF l = true) (hp : l.Perm l') :
    buildSeq l = buildSeq l' := by
  have hcf' := hashCF_perm hp hcf
  apply extKV natLt (fun a => natLt_irrefl a) (fun a b c => natLt_trans) (fun a b => natLt_total)
    (sorted_buildSeq l) (sorted_buildSeq l')
  intro k
  by_cases hex : ∃ f ∈ l, valueHash f = k
  · obtain ⟨f, hf, hk⟩ := hex
    rw [(lookup_buildSeq_cf hcf k f).mpr ⟨hf, hk⟩,
      (lookup_buildSeq_cf hcf' k f).mpr ⟨hp.mem_iff.mp hf, hk⟩]
  · push_neg at hex
    rw [lookup_buildSeq_none k hex, lookup_buildSeq_none k (fun f hf => hex f (hp.mem_iff.mpr hf))]

theorem vals_buildSeq_nodup (l : List Value) : ((buildSeq l).map Prod.snd).Nodup := by
  have hgen : ∀ (m : List (Nat × Value)), SortedKV natLt m →
      (∀ p ∈ m, p.1 = valueHash p.2) → (m.map Prod.snd).Nodup := by
    intro m
    induction m with
    | nil => intro _ _; simp
    | cons p rest ih =>
      intro hs hinv
      rw [SortedKV, List.pairwise_cons] at hs
      rw [List.map_cons, List.nodup_cons]
      constructor
      · intro hmem
        obtain ⟨q, hq, hqe⟩ := List.mem_map.mp hmem
        have h1 := hinv p (by simp)
        have h2 := hinv q (List.mem_cons_of_mem _ hq)
        have h3 := hs.1 q hq
        rw [h1, h2, hqe] at h3
        rw [natLt_irrefl] at h3
        exact Bool.false_ne_true h3
      · exact ih hs.2 (fun q hq => hinv q (List.mem_cons_of_mem _ hq))
  exact hgen _ (sorted_buildSeq l) (fun p hp => (mem_buildSeq hp).2)

theorem vals_buildSeq_mem {l : List Value} (hcf : hashCF l = true) (f : Value) :
    f ∈ (buildSeq l).map Prod.snd ↔ f ∈ l := by
  constructor
  · intro h
    obtain ⟨p, hp, hpe⟩ := List.mem_map.mp h
    exact hpe ▸ (mem_buildSeq hp).1
  · intro h
    have := (lookup_buildSeq_cf hcf (valueHash f) f).mpr ⟨h, rfl⟩
    exact List.mem_map.mpr ⟨(valueHash f, f), lookupKV_some_mem this, rfl⟩

theorem buildSeq_all_eq {l : List Value} {f : Value} (hne : l ≠ [])
    (hall : ∀ g ∈ l, g = f) : buildSeq l = [(valueHash f, f)] := by
  have hstable : ∀ (rest : List Value), (∀ g ∈ rest, g = f) →
      rest.foldl insHash [(valueHash f, f)] = [(valueHash f, f)] := by
    intro rest
    induction rest with
    | nil => intro _; rfl
    | cons g r2 ih =>
      intro h
      have hg : g = f := h g (by simp)
      subst hg
      show r2.foldl insHash (insHash [(valueHash g, g)] g) = _
      have : insHash [(valueHash g, g)] g = [(valueHash g, g)] := by
        rw [insHash, insertKV]
        rw [if_neg (by rw [natLt_irrefl]; exact Bool.false_ne_true), if_pos rfl]
      rw [this]
      exact ih (fun x hx => h x (List.mem_cons_of_mem _ hx))
  cases l with
  | nil => exact absurd rfl hne
  | cons g rest =>
    have hg : g = f := hall g (by simp)
    subst hg
    show rest.foldl insHash (insHash [] g) = _
    have : insHash [] g = [(valueHash g, g)] := rfl
    rw [this]
    exact hstable rest (fun x hx => hall x (List.mem_cons_of_mem _ hx))

/-! ### Totality of inference: the unreachable-panic invariant -/

theorem shallowWF_arrayResult (x : Value) :
    ShallowWF (.obj [("items", x), ("type", .str "array")]) = true := by
  have hlook : lookupKV [("items", x), ("type", Value.str "array")] "type" =
      some (.str "array") := by
    rw [lookupKV, if_neg (by decide), lookupKV, if_pos rfl]
  simp only [ShallowWF, hlook]
  rw [if_neg (by decide)]

theorem shallowWF_inferString (df : Bool) (s : String) :
    ShallowWF (inferString df s) = true := by
  rw [inferString]
  cases df with
  | false => simp only [Bool.false_eq_true, if_false]; decide
  | true =>
    cases hf : inferFormat s with
    | none => simp only [if_true]; decide
    | some f =>
      simp only [if_true]
      have hins : insertKV strLt [("type", Value.str "string")] "format" (.str f) =
          [("format", Value.str f), ("type", Value.str "string")] := by
        rw [insertKV, if_pos (by decide)]
      rw [hins]
      have hlook : lookupKV [("format", Value.str f), ("type", Value.str "string")] "type" =
          some (.str "string") := by
        rw [lookupKV, if_neg (by decide), lookupKV, if_pos rfl]
      simp only [ShallowWF, hlook]
      rw [if_neg (by decide)]

theorem shallowWF_inferObjectCore (pairs : List (String × Value)) :
    ShallowWF (inferObjectCore pairs) = true := by
  rw [inferObjectCore]
  have hty : lookupKV [("properties",
      Value.obj (pairs.foldl (fun acc p => insertKV strLt acc p.1 p.2) [])),
      ("required", Value.arr (pairs.map (fun p => Value.str p.1))),
      ("type", Value.str "object")] "type" = some (.str "object") := by
    rw [lookupKV, if_neg (by decide), lookupKV, if_neg (by decide), lookupKV, if_pos rfl]
  simp only [ShallowWF, hty, eq_self_iff_true, if_true]
  rw [Bool.and_eq_true]
  constructor
  · rw [hasReqStrs, lookupKV, if_neg (by decide), lookupKV, if_pos rfl]
    show (pairs.map (fun p => Value.str p.1)).all isStr = true
    rw [List.all_eq_true]
    intro x hx
    obtain ⟨p, hp, hpe⟩ := List.mem_map.mp hx
    rw [← hpe, isStr]
  · rw [hasPropsObj, lookupKV, if_pos rfl]

theorem inferList_total {df : Bool} :
    ∀ {es : List Value},
    (∀ e ∈ es, ∃ r, inferValue df e = some r ∧ ShallowWF r = true) →
    ∃ frags, inferList df es = some frags ∧ frags.length = es.length ∧
      ∀ f ∈ frags, ShallowWF f = true := by
  intro es
  induction es with
  | nil => exact fun _ => ⟨[], rfl, rfl, by simp⟩
  | cons e rest ih =>
    intro h
    obtain ⟨r, hr, hrwf⟩ := h e (by simp)
    obtain ⟨frags, hfr, hlen, hwf⟩ := ih (fun x hx => h x (List.mem_cons_of_mem _ hx))
    refine ⟨r :: frags, ?_, by simp [hlen], ?_⟩
    · rw [inferList, hr, hfr]
    · intro f hf
      rcases List.mem_cons.mp hf with h2 | h2
      · subst h2; exact hrwf
      · exact hwf f h2

theorem inferFields_total {df : Bool} :
    ∀ {fs : List (String × Value)},
    (∀ kv ∈ fs, ∃ r, inferValue df kv.2 = some r ∧ ShallowWF r = true) →
    ∃ pairs, inferFields df fs = some pairs := by
  intro fs
  induction fs with
  | nil => exact fun _ => ⟨[], rfl⟩
  | cons kv rest ih =>
    intro h
    obtain ⟨k, v⟩ := kv
    obtain ⟨r, hr, -⟩ := h (k, v) (by simp)
    obtain ⟨pairs, hp⟩ := ih (fun x hx => h x (List.mem_cons_of_mem _ hx))
    exact ⟨(k, r) :: pairs, by rw [inferFields, hr, hp]⟩

theorem finishArray_total {m : List (Nat × Value)}
    (hwf : ∀ f ∈ m.map Prod.snd, ShallowWF f = true) :
    ∃ r, finishArray m = some r ∧ ShallowWF r = true := by
  rw [finishArray]
  cases hv : m.map Prod.snd with
  | nil =>
    obtain ⟨o, ho, -, hom⟩ := tryMerge_total (by rw [hv] at hwf; exact hwf)
    cases o with
    | none => exact ⟨_, by rw [ho], shallowWF_arrayResult _⟩
    | some merged => exact ⟨_, by rw [ho], shallowWF_arrayResult _⟩
  | cons v0 vrest =>
    cases vrest with
    | nil => exact ⟨_, rfl, shallowWF_arrayResult v0⟩
    | cons v1 vrest2 =>
      obtain ⟨o, ho, -, hom⟩ := tryMerge_total (by rw [hv] at hwf; exact hwf)
      cases o with
      | none => exact ⟨_, by rw [ho], shallowWF_arrayResult _⟩
      | some merged => exact ⟨_, by rw [ho], shallowWF_arrayResult _⟩

theorem inferArrayCore_eq_seq (frags : List Value) :
    inferArrayCore frags = finishArray (buildSeq frags) := by
  rw [inferArrayCore]
  split
  · rfl
  · rfl

/-- The central invariant: on every input value the internal inference
succeeds (none of the modelled `unwrap`s is reached) and produces a
shallowly well-formed fragment. -/
theorem inferValue_total_wf (df : Bool) :
    ∀ v, ∃ r, inferValue df v = some r ∧ ShallowWF r = true := by
  intro v
  induction v using Value.inductionOn with
  | hnull => exact ⟨_, rfl, by decide⟩
  | hbool b => exact ⟨_, rfl, by decide⟩
  | hnum f n =>
    cases f with
    | false => exact ⟨_, rfl, by decide⟩
    | true => exact ⟨_, rfl, by decide⟩
  | hstr s => exact ⟨_, rfl, shallowWF_inferString df s⟩
  | harr xs ih =>
    obtain ⟨frags, hfr, -, hwf⟩ := inferList_total ih
    have hvwf : ∀ f ∈ (buildSeq frags).map Prod.snd, ShallowWF f = true := by
      intro f hf
      obtain ⟨p, hp, hpe⟩ := List.mem_map.mp hf
      exact hwf f (hpe ▸ (mem_buildSeq hp).1)
    obtain ⟨r, hr, hrwf⟩ := finishArray_total hvwf
    refine ⟨r, ?_, hrwf⟩
    rw [inferValue, hfr, ← inferArrayCore_eq_seq] at *
    exact hr
  | hobj fs ih =>
    obtain ⟨pairs, hp⟩ := inferFields_total ih
    exact ⟨inferObjectCore pairs, by rw [inferValue, hp], shallowWF_inferObjectCore pairs⟩

theorem inferValue_wf_of_eq {df : Bool} {v r : Value} (h : inferValue df v = some r) :
    ShallowWF r = true := by
  obtain ⟨r2, hr2, hwf⟩ := inferValue_total_wf df v
  rw [h] at hr2
  obtain rfl := Option.some.inj hr2
  exact hwf

/-! ### Further merge-engine characterizations -/

theorem contains_iff_memStr (l : List String) (a : String) : l.contains a = true ↔ a ∈ l := by
  simp

theorem reqsOf_length : ∀ {data : List Value} {reqs : List (List String)},
    reqsOf data = some reqs → reqs.length = data.length := by
  intro data
  induction data with
  | nil =>
    intro reqs h
    obtain rfl := Option.some.inj h
    rfl
  | cons item rest ih =>
    intro reqs h
    rw [reqsOf] at h
    cases hc : collectRequired item with
    | none => rw [hc] at h; exact absurd h (by simp)
    | some r =>
      rw [hc] at h
      cases hr : reqsOf rest with
      | none => rw [hr] at h; exact absurd h (by simp)
      | some rs =>
        rw [hr] at h
        obtain rfl := Option.some.inj h
        simp [ih hr]

theorem reqsOf_forall (P : List String → Prop) :
    ∀ {data : List Value} {reqs : List (List String)}, reqsOf data = some reqs →
    ((∀ s ∈ reqs, P s) ↔ (∀ f ∈ data, ∃ req, collectRequired f = some req ∧ P req)) := by
  intro data
  induction data with
  | nil =>
    intro reqs h
    obtain rfl := Option.some.inj h
    simp
  | cons item rest ih =>
    intro reqs h
    rw [reqsOf] at h
    cases hc : collectRequired item with
    | none => rw [hc] at h; exact absurd h (by simp)
    | some r =>
      rw [hc] at h
      cases hr : reqsOf rest with
      | none => rw [hr] at h; exact absurd h (by simp)
      | some rs =>
        rw [hr] at h
        obtain rfl := Option.some.inj h
        constructor
        · intro hall f hf
          rcases List.mem_cons.mp hf with h2 | h2
          · subst h2; exact ⟨r, hc, hall r (by simp)⟩
          · exact ((ih hr).mp (fun s hs => hall s (List.mem_cons_of_mem _ hs))) f h2
        · intro hall s hs
          rcases List.mem_cons.mp hs with h2 | h2
          · subst h2
            obtain ⟨req, hreq, hP⟩ := hall item (by simp)
            rw [hc] at hreq
            obtain rfl := Option.some.inj hreq
            exact hP
          · exact ((ih hr).mpr (fun f hf => hall f (List.mem_cons_of_mem _ hf))) s h2

theorem collectRequired_mem {f : Value} {req : List String} (h : collectRequired f = some req) :
    ∀ name, name ∈ req ↔ ∃ xs, f.get "required" = some (.arr xs) ∧ Value.str name ∈ xs := by
  rw [collectRequired] at h
  cases hr : f.get "required" with
  | none => rw [hr] at h; exact absurd h (by simp)
  | some r =>
    rw [hr] at h
    cases r with
    | arr xs =>
      have h2 : Option.map List.dedup (reqStrings xs) = some req := h
      cases hss : reqStrings xs with
      | none => rw [hss] at h2; exact absurd h2 (by simp)
      | some ss =>
        rw [hss] at h2
        have hreq : ss.dedup = req := by simpa using h2
        intro name
        constructor
        · intro hn
          exact ⟨xs, rfl, (reqStrings_mem hss name).mp (List.mem_dedup.mp (hreq ▸ hn))⟩
        · rintro ⟨xs2, hxs2, hmem⟩
          obtain rfl : xs = xs2 := by
            have := Option.some.inj hxs2
            injection this
          rw [← hreq]
          exact List.mem_dedup.mpr ((reqStrings_mem hss name).mpr hmem)
    | null => exact absurd h (by simp)
    | bool b => exact absurd h (by simp)
    | num fl n => exact absurd h (by simp)
    | str s => exact absurd h (by simp)
    | obj o => exact absurd h (by simp)

/-- The full shape of a successful merge over object-kind fragments. -/
theorem tryMerge_all_object {data : List Value}
    (hwf : ∀ f ∈ data, ShallowWF f = true)
    (hobj : ∀ f ∈ data, f.get "type" = some (.str "object")) :
    ∃ pt reqs,
      reqsOf data = some reqs ∧
      pt = (allProps data).foldl (fun acc p => updateEntry acc p.1 p.2) [] ∧
      tryMerge data = some (some (.obj (insertKV strLt
        (fillRequired [("type", Value.str "object")] reqs) "properties"
        (.obj (pt.foldl (fun acc p => insertKV strLt acc p.1 (mergePropValue p.2)) []))))) := by
  obtain ⟨b, hb, hiff⟩ := allTypesObject_wf hwf
  have hbt : b = true := hiff.mpr hobj
  subst hbt
  obtain ⟨out, hout⟩ := mergeLoop_total (fun f hf => ⟨hwf f hf, hobj f hf⟩) [] []
  obtain ⟨pt, kr⟩ := out
  obtain ⟨reqs0, hreqs0, hch⟩ := mergeLoop_char hout
  rw [Prod.mk.injEq] at hch
  obtain ⟨hpt0, hkr0⟩ := hch
  rw [List.nil_append] at hkr0
  subst hkr0
  have habs : lookupKV (fillRequired [("type", Value.str "object")] kr) "properties" = none := by
    rw [fillRequired_lookup_other _ _ _ (by decide)]
    exact lookupKV_base_type.1
  have hfp := fillProperties_of_absent habs pt
  refine ⟨pt, kr, hreqs0, hpt0, ?_⟩
  simp only [tryMerge, hb, hout, hfp]

/-! ### Claim C4 -/

/-- C4: for every well-formed JSON value tree, and either setting of the
format-detection flag, the public `infer` returns a fragment without
failing: the `Option`-modelled pipeline — in which `as_object_mut` in
`infer` and the `get("type")`, `get("properties")`, `get("required")`
unwraps inside `try_merge`/`collect_required` are the only `none` sources —
never produces `none`, so those unwraps sit on unreachable error branches. -/
theorem infer_never_fails : ∀ (df : Bool) (v : Value), ∃ r, inferWith df v = some r := by
  intro df v
  obtain ⟨r, hr, hwf⟩ := inferValue_total_wf df v
  obtain ⟨fields, rfl, -⟩ := shallowWF_obj hwf
  refine ⟨.obj (insertKV strLt fields "$schema"
    (.str "http://json-schema.org/draft-07/schema#")), ?_⟩
  simp only [inferWith, hr]

/-! ### Claim C10 -/

/-- C10: the public entry point `infer` (`JSONSchema::infer`, for every
`detect_format` setting and every input kind) returns the inferred
fragment's object decorated, inside `infer` itself, with the top-level
`$schema` key bound to exactly `http://json-schema.org/draft-07/schema#`,
leaving every other key of the fragment untouched. -/
theorem infer_adds_schema_marker :
    ∀ (df : Bool) (v : Value), ∃ fields,
      inferValue df v = some (.obj fields) ∧
      inferWith df v = some (.obj (insertKV strLt fields "$schema"
        (.str "http://json-schema.org/draft-07/schema#"))) ∧
      lookupKV (insertKV strLt fields "$schema"
        (.str "http://json-schema.org/draft-07/schema#")) "$schema" =
        some (.str "http://json-schema.org/draft-07/schema#") ∧
      ∀ k, k ≠ "$schema" →
        lookupKV (insertKV strLt fields "$schema"
          (.str "http://json-schema.org/draft-07/schema#")) k = lookupKV fields k := by
  intro df v
  obtain ⟨r, hr, hwf⟩ := inferValue_total_wf df v
  obtain ⟨fields, rfl, -⟩ := shallowWF_obj hwf
  refine ⟨fields, hr, ?_, lookupKV_insertKV_self strLt fields _ _, ?_⟩
  · simp only [inferWith, hr]
  · intro k hk
    exact lookupKV_insertKV_ne strLt fields _ _ k hk

/-- Closed witness for C10's theorem at a concrete input and key. -/
theorem infer_adds_schema_marker_witness :
    ∃ fields,
      inferValue true .null = some (.obj fields) ∧
      inferWith true .null = some (.obj (insertKV strLt fields "$schema"
        (.str "http://json-schema.org/draft-07/schema#"))) ∧
      lookupKV (insertKV strLt fields "$schema"
        (.str "http://json-schema.org/draft-07/schema#")) "$schema" =
        some (.str "http://json-schema.org/draft-07/schema#") ∧
      lookupKV (insertKV strLt fields "$schema"
        (.str "http://json-schema.org/draft-07/schema#")) "type" = lookupKV fields "type" := by
  obtain ⟨fields, h1, h2, h3, h4⟩ := infer_adds_schema_marker true .null
  exact ⟨fields, h1, h2, h3, h4 "type" (by decide)⟩

/-! ### Claim C9 -/

theorem inferString_fields (df : Bool) (s : String) :
    ∃ fields, inferString df s = .obj fields ∧ lookupKV fields "type" = some (.str "string") := by
  rw [inferString]
  cases df with
  | false =>
    simp only [Bool.false_eq_true, if_false]
    exact ⟨_, rfl, by decide⟩
  | true =>
    simp only [if_true]
    cases hf : inferFormat s with
    | none => exact ⟨_, rfl, by decide⟩
    | some f =>
      refine ⟨[("format", Value.str f), ("type", Value.str "string")], ?_, ?_⟩
      · show Value.obj (insertKV strLt [("type", Value.str "string")] "format" (.str f)) = _
        rw [insertKV, if_pos (by decide)]
      · rw [lookupKV, if_neg (by decide), lookupKV, if_pos rfl]

/-- C9: scalar leaf mapping — `null` infers kind `null`, booleans kind
`boolean`, numbers stored as integer literals kind `integer`, numbers
stored as floating literals kind `number` (whatever their magnitude, since
only the `is_f64` flag is read), and strings kind `string` (whatever
`format` may be added). -/
theorem scalar_leaf_mapping :
    ∀ df : Bool,
      inferValue df .null = some (.obj [("type", .str "null")]) ∧
      (∀ b, inferValue df (.bool b) = some (.obj [("type", .str "boolean")])) ∧
      (∀ n : Int, inferValue df (.num false n) = some (.obj [("type", .str "integer")])) ∧
      (∀ n : Int, inferValue df (.num true n) = some (.obj [("type", .str "number")])) ∧
      (∀ s, ∃ fields, inferValue df (.str s) = some (.obj fields) ∧
        lookupKV fields "type" = some (.str "string")) := by
  intro df
  refine ⟨rfl, fun b => rfl, fun n => rfl, fun n => rfl, fun s => ?_⟩
  obtain ⟨fields, hf, ht⟩ := inferString_fields df s
  exact ⟨fields, by rw [inferValue, hf], ht⟩

/-! ### Claim C8 -/

/-- C8: format detection tries the recognizers in the fixed order `integer`
(i32), `date` (`YYYY-MM-DD` calendar date), `date-time` (RFC 3339),
stopping at the first success and yielding no format when none match; in
particular `"1"` gets `integer` (never `date`/`date-time`), `"2020-01-01"`
gets `date`, `"2018-11-13T20:20:39+00:00"` gets `date-time`, and `"hello"`
carries no format — as a fragment, `"1"` infers `{type: string, format:
integer}`. -/
theorem format_detection_precedence :
    (∀ s, parseI32Ok s = true → inferFormat s = some "integer") ∧
    (∀ s, parseI32Ok s = false → parseDateOk s = true → inferFormat s = some "date") ∧
    (∀ s, parseI32Ok s = false → parseDateOk s = false → parseRFC3339Ok s = true →
      inferFormat s = some "date-time") ∧
    (∀ s, parseI32Ok s = false → parseDateOk s = false → parseRFC3339Ok s = false →
      inferFormat s = none) ∧
    inferFormat "1" = some "integer" ∧
    inferFormat "2020-01-01" = some "date" ∧
    inferFormat "2018-11-13T20:20:39+00:00" = some "date-time" ∧
    inferFormat "hello" = none ∧
    inferValue true (.str "1") =
      some (.obj [("format", .str "integer"), ("type", .str "string")]) := by
  refine ⟨?_, ?_, ?_, ?_, by decide, by decide, by decide, by decide, by decide⟩
  · intro s h1; rw [inferFormat, if_pos h1]
  · intro s h1 h2
    rw [inferFormat, if_neg (by rw [h1]; exact Bool.false_ne_true), if_pos h2]
  · intro s h1 h2 h3
    rw [inferFormat, if_neg (by rw [h1]; exact Bool.false_ne_true),
      if_neg (by rw [h2]; exact Bool.false_ne_true), if_pos h3]
  · intro s h1 h2 h3
    rw [inferFormat, if_neg (by rw [h1]; exact Bool.false_ne_true),
      if_neg (by rw [h2]; exact Bool.false_ne_true),
      if_neg (by rw [h3]; exact Bool.false_ne_true)]

/-- Closed witness for C8's theorem: the `date` recognizer fires on
`"2020-01-01"` only after the i32 recognizer failed. -/
theorem format_detection_precedence_witness :
    parseI32Ok "2020-01-01" = false ∧ parseDateOk "2020-01-01" = true ∧
    inferFormat "2020-01-01" = some "date" :=
  ⟨by decide, by decide,
    format_detection_precedence.2.1 "2020-01-01" (by decide) (by decide)⟩

/-! ### Claim C5 (code bug: the empty array) -/

/-- C5 evaluation: on the empty array the code reaches `try_merge` with an
empty fragment list, whose vacuous all-objects check succeeds, so `items`
becomes the constraining schema `{"properties": {}, "type": "object"}`
rather than being omitted or unconstrained. -/
theorem empty_array_items_constrains :
    infer (.arr []) = some (.obj
      [("$schema", .str "http://json-schema.org/draft-07/schema#"),
       ("items", .obj [("properties", .obj []), ("type", .str "object")]),
       ("type", .str "array")]) := by decide

/-! ### Claim C3 -/

/-- C3: on well-formed fragments, `try_merge` reports "not mergeable"
(`None`, modelled `some none`) exactly when at least one input fragment has
a kind other than `object`; when every input fragment is object-kind it
always returns a merged object fragment and never fails. -/
theorem tryMerge_contract :
    ∀ data : List Value, (∀ f ∈ data, ShallowWF f = true) →
      (tryMerge data = some none ↔ ∃ f ∈ data, f.get "type" ≠ some (.str "object")) ∧
      ((∀ f ∈ data, f.get "type" = some (.str "object")) →
        ∃ mf, tryMerge data = some (some (.obj mf)) ∧
          lookupKV mf "type" = some (.str "object")) := by
  intro data hwf
  obtain ⟨o, ho, hiff, hshape⟩ := tryMerge_total hwf
  constructor
  · rw [ho]
    cases o with
    | none => simp only [true_iff]; exact hiff.mp rfl
    | some m =>
      constructor
      · intro h; exact absurd (Option.some.inj h) (by simp)
      · intro hex
        exact absurd (hiff.mpr hex) (by simp)
  · intro hall
    cases o with
    | none =>
      obtain ⟨f, hf, hne⟩ := hiff.mp rfl
      exact absurd (hall f hf) hne
    | some m =>
      obtain ⟨mf, rfl, hty⟩ := hshape m rfl
      exact ⟨mf, ho, hty⟩

/-- Closed witness for C3's theorem: a mixed pair is not mergeable, an
all-object pair merges. -/
theorem tryMerge_contract_witness :
    (tryMerge [Value.obj [("properties", .obj []), ("required", .arr []),
        ("type", .str "object")], Value.obj [("type", .str "null")]] = some none) ∧
    (∃ mf, tryMerge [Value.obj [("properties", .obj []), ("required", .arr []),
        ("type", .str "object")]] = some (some (.obj mf)) ∧
      lookupKV mf "type" = some (.str "object")) := by
  constructor
  · exact ((tryMerge_contract _ (by decide)).1).mpr
      ⟨Value.obj [("type", .str "null")], by simp, by decide⟩
  · exact (tryMerge_contract _ (by decide)).2 (by decide)

/-! ### Claim C1 -/

/-- C1: for every non-empty collection of well-formed object-kind fragments
passed to the merge engine, a property name appears in the merged
`required` array iff it is listed in the `required` array of every one of
the fragments; and when no name is common to all fragments the merged
fragment omits the `required` key entirely (it never carries an empty
list). -/
theorem merged_required_intersection :
    ∀ data : List Value, data ≠ [] →
    (∀ f ∈ data, ShallowWF f = true) →
    (∀ f ∈ data, f.get "type" = some (.str "object")) →
    ∃ mf, tryMerge data = some (some (.obj mf)) ∧
      (∀ name : String,
        (∃ rs, lookupKV mf "required" = some (.arr rs) ∧ Value.str name ∈ rs) ↔
        (∀ f ∈ data, ∃ xs, f.get "required" = some (.arr xs) ∧ Value.str name ∈ xs)) ∧
      ((¬ ∃ name : String, ∀ f ∈ data, ∃ xs, f.get "required" = some (.arr xs) ∧
          Value.str name ∈ xs) → lookupKV mf "required" = none) := by
  intro data hne hwf hobj
  obtain ⟨pt, reqs, hreqs, hpt, htm⟩ := tryMerge_all_object hwf hobj
  have hQ : ∀ name : String, (∀ s ∈ reqs, name ∈ s) ↔
      (∀ f ∈ data, ∃ xs, f.get "required" = some (.arr xs) ∧ Value.str name ∈ xs) := by
    intro name
    rw [reqsOf_forall (fun s => name ∈ s) hreqs]
    constructor
    · intro h f hf
      obtain ⟨req, hreq, hmem⟩ := h f hf
      exact (collectRequired_mem hreq name).mp hmem
    · intro h f hf
      obtain ⟨-, req, hreq, -⟩ := wf_object_parts (hwf f hf) (hobj f hf)
      exact ⟨req, hreq, (collectRequired_mem hreq name).mpr (h f hf)⟩
  have hlook : ∀ x, lookupKV (insertKV strLt
      (fillRequired [("type", Value.str "object")] reqs) "properties" x) "required" =
      lookupKV (fillRequired [("type", Value.str "object")] reqs) "required" :=
    fun x => lookupKV_insertKV_ne strLt _ _ x _ (by decide)
  cases reqs with
  | nil =>
    exfalso
    have := reqsOf_length hreqs
    cases data with
    | nil => exact hne rfl
    | cons d rest => exact absurd this (by simp)
  | cons first rest =>
    have hmemc : ∀ name, name ∈ first.filter
        (fun k => (first :: rest).all (fun s => s.contains k)) ↔
        ∀ s ∈ (first :: rest), name ∈ s := by
      intro name
      constructor
      · intro h
        rw [List.mem_filter] at h
        obtain ⟨h1, h2⟩ := h
        rw [List.all_eq_true] at h2
        intro s hs
        exact (contains_iff_memStr s name).mp (h2 s hs)
      · intro h
        rw [List.mem_filter]
        refine ⟨h first (by simp), ?_⟩
        rw [List.all_eq_true]
        intro s hs
        exact (contains_iff_memStr s name).mpr (h s hs)
    by_cases hc : first.filter (fun k => (first :: rest).all (fun s => s.contains k)) = []
    · have hfr : fillRequired [("type", Value.str "object")] (first :: rest) =
          [("type", Value.str "object")] := by
        rw [fillRequired]
        simp only [hc, List.isEmpty_nil, if_true]
      refine ⟨_, htm, ?_, ?_⟩
      · intro name
        rw [hlook, hfr]
        constructor
        · rintro ⟨rs, hrs, -⟩
          exact absurd hrs (by simp [lookupKV])
        · intro h
          exfalso
          have : name ∈ first.filter (fun k => (first :: rest).all (fun s => s.contains k)) :=
            (hmemc name).mpr ((hQ name).mpr h)
          rw [hc] at this
          exact absurd this (by simp)
      · intro _
        rw [hlook, hfr]
        simp [lookupKV]
    · have hie : (first.filter (fun k => (first :: rest).all
          (fun s => s.contains k))).isEmpty = false := by
        cases hq : (first.filter (fun k => (first :: rest).all (fun s => s.contains k))).isEmpty
        · rfl
        · exact absurd (List.isEmpty_iff.mp hq) hc
      have hfr : fillRequired [("type", Value.str "object")] (first :: rest) =
          insertKV strLt [("type", Value.str "object")] "required"
            (.arr ((first.filter (fun k => (first :: rest).all
              (fun s => s.contains k))).map Value.str)) := by
        rw [fillRequired]
        simp only [hie, Bool.false_eq_true, if_false]
      have hmap : ∀ name : String, Value.str name ∈ (first.filter
          (fun k => (first :: rest).all (fun s => s.contains k))).map Value.str ↔
          name ∈ first.filter (fun k => (first :: rest).all (fun s => s.contains k)) := by
        intro name
        rw [List.mem_map]
        constructor
        · rintro ⟨a, ha, hae⟩
          have : a = name := by injection hae
          exact this ▸ ha
        · intro h; exact ⟨name, h, rfl⟩
      refine ⟨_, htm, ?_, ?_⟩
      · intro name
        rw [hlook, hfr, lookupKV_insertKV_self]
        constructor
        · rintro ⟨rs, hrs, hmem⟩
          obtain rfl : (first.filter (fun k => (first :: rest).all
              (fun s => s.contains k))).map Value.str = rs := by
            have := Option.some.inj hrs
            injection this
          exact (hQ name).mp ((hmemc name).mp ((hmap name).mp hmem))
        · intro h
          exact ⟨_, rfl, (hmap name).mpr ((hmemc name).mpr ((hQ name).mpr h))⟩
      · intro hno
        exfalso
        obtain ⟨name, hname⟩ := List.exists_mem_of_ne_nil _ hc
        exact hno ⟨name, (hQ name).mp ((hmemc name).mp hname)⟩

/-- Closed witness for C1's theorem: two fragments both requiring `a`
merge to a fragment requiring `a`. -/
theorem merged_required_intersection_witness :
    ∃ mf, tryMerge [Value.obj [("properties", .obj [("a", .obj [("type", .str "integer")])]),
        ("required", .arr [.str "a"]), ("type", .str "object")],
      Value.obj [("properties", .obj [("a", .obj [("type", .str "null")])]),
        ("required", .arr [.str "a"]), ("type", .str "object")]] = some (some (.obj mf)) ∧
      (∃ rs, lookupKV mf "required" = some (.arr rs) ∧ Value.str "a" ∈ rs) := by
  obtain ⟨mf, htm, hiff, -⟩ := merged_required_intersection
    [Value.obj [("properties", .obj [("a", .obj [("type", .str "integer")])]),
        ("required", .arr [.str "a"]), ("type", .str "object")],
      Value.obj [("properties", .obj [("a", .obj [("type", .str "null")])]),
        ("required", .arr [.str "a"]), ("type", .str "object")]]
    (by simp) (by decide) (by decide)
  refine ⟨mf, htm, (hiff "a").mpr ?_⟩
  intro f hf
  simp only [List.mem_cons, List.not_mem_nil, or_false] at hf
  rcases hf with rfl | rfl
  · exact ⟨[.str "a"], by decide, by decide⟩
  · exact ⟨[.str "a"], by decide, by decide⟩

/-! ### Claim C6 -/

/-- C6: array-element inference takes the parallel branch only when the
element count exceeds 8 (the `array.len() > 8` test) and the sequential
branch otherwise, and both branches build the same hash-keyed map, so for
every array the result coincides with the all-sequential computation and
with the all-parallel computation — the branch choice never changes the
resulting fragment.  (The parallelism itself is scheduling, not data flow:
rayon's indexed collect produces the same `BTreeMap`, which is why the two
modelled branches share a body.) -/
theorem parallel_threshold_equiv :
    ∀ (df : Bool) (elems : List Value),
      inferValue df (.arr elems) =
        (inferList df elems).bind (fun frags => finishArray (buildSeq frags)) ∧
      inferValue df (.arr elems) =
        (inferList df elems).bind (fun frags => finishArray (buildPar frags)) ∧
      (∀ frags : List Value,
        inferArrayCore frags =
          (if frags.length > 8 then finishArray (buildPar frags)
           else finishArray (buildSeq frags)) ∧
        finishArray (buildPar frags) = finishArray (buildSeq frags)) := by
  intro df elems
  have hseq : inferValue df (.arr elems) =
      (inferList df elems).bind (fun frags => finishArray (buildSeq frags)) := by
    cases h : inferList df elems with
    | none => simp only [inferValue, h, Option.bind]
    | some frags =>
      simp only [inferValue, h, Option.bind]
      exact inferArrayCore_eq_seq frags
  refine ⟨hseq, ?_, fun frags => ⟨?_, ?_⟩⟩
  · rw [hseq]
    simp only [buildPar_eq_buildSeq]
  · rw [inferArrayCore, apply_ite finishArray]
  · rw [buildPar_eq_buildSeq]

/-! ### Claim C7 -/

/-- Nested singleton arrays of depth `n`: infinitely many inputs with
pairwise distinct inferred fragments. -/
def nest : Nat → Value
  | 0 => .null
  | n + 1 => .arr [nest n]

/-- The fragment inferred for `nest n`. -/
def Fr : Nat → Value
  | 0 => .obj [("type", .str "null")]
  | n + 1 => .obj [("items", Fr n), ("type", .str "array")]

theorem inferValue_nest (df : Bool) : ∀ n, inferValue df (nest n) = some (Fr n) := by
  intro n
  induction n with
  | zero => rfl
  | succ n ih =>
    have hl : inferList df [nest n] = some [Fr n] := by
      simp only [inferList, ih]
    show inferValue df (.arr [nest n]) = some (Fr (n + 1))
    simp only [inferValue, hl]
    rw [inferArrayCore_eq_seq]
    rfl

theorem Fr_inj : ∀ {m n : Nat}, Fr m = Fr n → m = n := by
  intro m
  induction m with
  | zero =>
    intro n h
    cases n with
    | zero => rfl
    | succ n => simp [Fr] at h
  | succ m ih =>
    intro n h
    cases n with
    | zero => simp [Fr] at h
    | succ n =>
      simp only [Fr, Value.obj.injEq, List.cons.injEq, Prod.mk.injEq, true_and, and_true] at h
      rw [ih h]

/-- The modelled 64-bit hash cannot be injective on the infinitely many
pairwise-distinct fragments `Fr n`: two distinct ones collide.  (The same
pigeonhole argument applies verbatim to the real SipHash-1-3 `DefaultHasher`,
whose codomain is also `2^64` values.) -/
theorem hash_collision_exists :
    ∃ m n : Nat, m ≠ n ∧ Fr m ≠ Fr n ∧ valueHash (Fr m) = valueHash (Fr n) := by
  obtain ⟨i, j, hne, heq⟩ := Fintype.exists_ne_map_eq_of_card_lt
    (fun i : Fin (2 ^ 64 + 1) => (⟨valueHash (Fr i.val), valueHash_lt _⟩ : Fin (2 ^ 64)))
    (by rw [Fintype.card_fin, Fintype.card_fin]; exact Nat.lt_succ_self _)
  refine ⟨i.val, j.val, ?_, ?_, ?_⟩
  · intro h; exact hne (Fin.ext h)
  · intro h; exact hne (Fin.ext (Fr_inj h))
  · exact congrArg Fin.val heq

/-- C7 counterexample: permuting array elements can change the output.
When two structurally distinct element fragments collide in the 64-bit
hash, the `BTreeMap<u64, Value>` keeps only the later insertion, so the
two orders of a two-element array yield different `items`. -/
theorem permutation_changes_output :
    ∃ l l' : List Value, l.Perm l' ∧ infer (.arr l) ≠ infer (.arr l') := by
  obtain ⟨m, n, -, hfr, hh⟩ := hash_collision_exists
  refine ⟨[nest m, nest n], [nest n, nest m], List.Perm.swap _ _ _, ?_⟩
  have hb1 : buildSeq [Fr m, Fr n] = [(valueHash (Fr n), Fr n)] := by
    show insertKV natLt (insertKV natLt [] (valueHash (Fr m)) (Fr m))
      (valueHash (Fr n)) (Fr n) = _
    rw [hh]
    show insertKV natLt [(valueHash (Fr n), Fr m)] (valueHash (Fr n)) (Fr n) = _
    rw [insertKV, if_neg (by rw [natLt_irrefl]; exact Bool.false_ne_true), if_pos rfl]
  have hb2 : buildSeq [Fr n, Fr m] = [(valueHash (Fr m), Fr m)] := by
    show insertKV natLt (insertKV natLt [] (valueHash (Fr n)) (Fr n))
      (valueHash (Fr m)) (Fr m) = _
    rw [← hh]
    show insertKV natLt [(valueHash (Fr m), Fr n)] (valueHash (Fr m)) (Fr m) = _
    rw [insertKV, if_neg (by rw [natLt_irrefl]; exact Bool.false_ne_true), if_pos rfl]
  have hins : ∀ x : Value, insertKV strLt [("items", x), ("type", Value.str "array")]
      "$schema" (.str "http://json-schema.org/draft-07/schema#") =
      [("$schema", .str "http://json-schema.org/draft-07/schema#"),
       ("items", x), ("type", Value.str "array")] := by
    intro x
    rw [insertKV, if_pos (by decide)]
  have h1 : infer (.arr [nest m, nest n]) = some (.obj
      [("$schema", .str "http://json-schema.org/draft-07/schema#"),
       ("items", Fr n), ("type", .str "array")]) := by
    have hl : inferList true [nest m, nest n] = some [Fr m, Fr n] := by
      simp only [inferList, inferValue_nest true]
    have hiv : inferValue true (.arr [nest m, nest n]) =
        some (.obj [("items", Fr n), ("type", .str "array")]) := by
      simp only [inferValue, hl]
      rw [inferArrayCore_eq_seq, hb1]
      rfl
    rw [infer]
    simp only [inferWith, hiv, hins]
  have h2 : infer (.arr [nest n, nest m]) = some (.obj
      [("$schema", .str "http://json-schema.org/draft-07/schema#"),
       ("items", Fr m), ("type", .str "array")]) := by
    have hl : inferList true [nest n, nest m] = some [Fr n, Fr m] := by
      simp only [inferList, inferValue_nest true]
    have hiv : inferValue true (.arr [nest n, nest m]) =
        some (.obj [("items", Fr m), ("type", .str "array")]) := by
      simp only [inferValue, hl]
      rw [inferArrayCore_eq_seq, hb2]
      rfl
    rw [infer]
    simp only [inferWith, hiv, hins]
  rw [h1, h2]
  intro hcon
  simp only [Option.some.injEq, Value.obj.injEq, List.cons.injEq, Prod.mk.injEq,
    true_and, and_true] at hcon
  exact hfr hcon.symm

theorem inferList_perm {df : Bool} :
    ∀ {l l' : List Value}, l.Perm l' → ∀ {frags}, inferList df l = some frags →
      ∃ frags', inferList df l' = some frags' ∧ frags.Perm frags' := by
  intro l l' hp
  induction hp with
  | nil => exact fun h => ⟨_, h, List.Perm.refl _⟩
  | cons x hp2 ih =>
    rename_i l1 l2
    intro frags h
    rw [inferList] at h
    cases hx : inferValue df x with
    | none => rw [hx] at h; exact absurd h (by simp)
    | some fx =>
      rw [hx] at h
      cases hl1 : inferList df l1 with
      | none => rw [hl1] at h; exact absurd h (by simp)
      | some fs =>
        rw [hl1] at h
        obtain rfl := Option.some.inj h
        obtain ⟨fs', hfs', hperm⟩ := ih hl1
        exact ⟨fx :: fs', by rw [inferList, hx, hfs'], hperm.cons fx⟩
  | swap x y l0 =>
    intro frags h
    rw [inferList] at h
    cases hy : inferValue df y with
    | none => rw [hy] at h; exact absurd h (by simp)
    | some fy =>
      rw [hy] at h
      cases h2 : inferList df (x :: l0) with
      | none => rw [h2] at h; exact absurd h (by simp)
      | some fs2 =>
        rw [h2] at h
        obtain rfl := Option.some.inj h
        rw [inferList] at h2
        cases hx : inferValue df x with
        | none => rw [hx] at h2; exact absurd h2 (by simp)
        | some fx =>
          rw [hx] at h2
          cases hl0 : inferList df l0 with
          | none => rw [hl0] at h2; exact absurd h2 (by simp)
          | some fs0 =>
            rw [hl0] at h2
            obtain rfl := Option.some.inj h2
            refine ⟨fx :: fy :: fs0, ?_, List.Perm.swap _ _ _⟩
            rw [inferList, hx, inferList, hy, hl0]
  | trans hp1 hp2 ih1 ih2 =>
    intro frags h
    obtain ⟨fs1, hfs1, hperm1⟩ := ih1 h
    obtain ⟨fs2, hfs2, hperm2⟩ := ih2 hfs1
    exact ⟨fs2, hfs2, hperm1.trans hperm2⟩

/-- C7 amended: provided the inferred element fragments have no hash
collisions between structurally distinct members, inference is invariant
under every permutation of the array's elements — the hash-keyed map, and
with it the whole output, is determined by the set of fragments, properties
are emitted sorted by name and union variants keyed by fragment hash.
(Absent that proviso the counterexample applies; the order in which the
merged `required` list is emitted comes from a randomly seeded `HashSet`
iteration in the source and is fixed arbitrarily in the model.) -/
theorem permutation_invariance_amended :
    ∀ (df : Bool) (l l' frags : List Value),
      l.Perm l' → inferList df l = some frags → hashCF frags = true →
      inferWith df (.arr l) = inferWith df (.arr l') := by
  intro df l l' frags hp hl hcf
  obtain ⟨frags', hl', hfp⟩ := inferList_perm hp hl
  have hbuild : buildSeq frags = buildSeq frags' := buildSeq_perm hcf hfp
  have h1 : inferValue df (.arr l) = finishArray (buildSeq frags) := by
    simp only [inferValue, hl]
    exact inferArrayCore_eq_seq frags
  have h2 : inferValue df (.arr l') = finishArray (buildSeq frags') := by
    simp only [inferValue, hl']
    exact inferArrayCore_eq_seq frags'
  rw [inferWith, inferWith, h1, h2, hbuild]

/-- Closed witness for C7's amended theorem at a concrete two-element
array. -/
theorem permutation_invariance_amended_witness :
    inferWith true (.arr [.null, .bool true]) = inferWith true (.arr [.bool true, .null]) :=
  permutation_invariance_amended true [.null, .bool true] [.bool true, .null]
    [Value.obj [("type", .str "null")], Value.obj [("type", .str "boolean")]]
    (List.Perm.swap _ _ _) rfl (by decide)

/-! ### Claim C2 -/

theorem inferList_members {df : Bool} :
    ∀ {l frags : List Value}, inferList df l = some frags →
    ∀ f ∈ frags, ∃ e ∈ l, inferValue df e = some f := by
  intro l
  induction l with
  | nil =>
    intro frags h f hf
    obtain rfl := Option.some.inj h
    exact absurd hf (by simp)
  | cons e rest ih =>
    intro frags h f hf
    rw [inferList] at h
    cases he : inferValue df e with
    | none => rw [he] at h; exact absurd h (by simp)
    | some fe =>
      rw [he] at h
      cases hrest : inferList df rest with
      | none => rw [hrest] at h; exact absurd h (by simp)
      | some fs =>
        rw [hrest] at h
        obtain rfl := Option.some.inj h
        rcases List.mem_cons.mp hf with h2 | h2
        · exact ⟨e, by simp, h2 ▸ he⟩
        · obtain ⟨e2, he2, hval⟩ := ih hrest f h2
          exact ⟨e2, List.mem_cons_of_mem _ he2, hval⟩

theorem vals_buildSeq_wf {df : Bool} {elems frags : List Value}
    (hl : inferList df elems = some frags) :
    ∀ f ∈ (buildSeq frags).map Prod.snd, ShallowWF f = true := by
  intro f hf
  obtain ⟨p, hp, hpe⟩ := List.mem_map.mp hf
  obtain ⟨e, -, hval⟩ := inferList_members hl f (hpe ▸ (mem_buildSeq hp).1)
  exact inferValue_wf_of_eq hval

/-- Items position, one distinct fragment: it becomes `items` verbatim,
never a union.  (No collision-freedom is needed: equal fragments always
share their hash key.) -/
theorem items_single_distinct {df : Bool} {elems frags : List Value} {f : Value}
    (hl : inferList df elems = some frags) (hf : f ∈ frags) (hall : ∀ g ∈ frags, g = f) :
    inferValue df (.arr elems) = some (.obj [("items", f), ("type", .str "array")]) := by
  have hb := buildSeq_all_eq (List.ne_nil_of_mem hf) hall
  simp only [inferValue, hl]
  rw [inferArrayCore_eq_seq, hb]
  rfl

/-- Items position, two or more distinct fragments, not all object-kind,
no hash collisions: `items` is an `anyOf` union listing exactly the
distinct fragments, without duplicates. -/
theorem items_union_of_nonobject {df : Bool} {elems frags : List Value}
    (hl : inferList df elems = some frags) (hcf : hashCF frags = true)
    (hdist : ∃ f ∈ frags, ∃ g ∈ frags, f ≠ g)
    (hnonobj : ∃ f ∈ frags, f.get "type" ≠ some (.str "object")) :
    ∃ vals : List Value,
      inferValue df (.arr elems) =
        some (.obj [("items", .obj [("anyOf", .arr vals)]), ("type", .str "array")]) ∧
      vals.Nodup ∧ (∀ f, f ∈ vals ↔ f ∈ frags) := by
  obtain ⟨f0, hf0, g0, hg0, hne⟩ := hdist
  obtain ⟨fb, hfb, hfbne⟩ := hnonobj
  have hmem := vals_buildSeq_mem hcf
  have hnd := vals_buildSeq_nodup frags
  obtain ⟨o, ho, hiff, -⟩ := tryMerge_total (vals_buildSeq_wf hl)
  have hon : o = none := hiff.mpr ⟨fb, (hmem fb).mpr hfb, hfbne⟩
  subst hon
  cases hvv : (buildSeq frags).map Prod.snd with
  | nil =>
    exfalso
    have := (hmem f0).mpr hf0
    rw [hvv] at this
    exact absurd this (by simp)
  | cons v0 tail =>
    cases tail with
    | nil =>
      exfalso
      have h1 := (hmem f0).mpr hf0
      have h2 := (hmem g0).mpr hg0
      rw [hvv] at h1 h2
      simp only [List.mem_singleton] at h1 h2
      exact hne (h1.trans h2.symm)
    | cons v1 tail2 =>
      refine ⟨v0 :: v1 :: tail2, ?_, hvv ▸ hnd, fun f => hvv ▸ hmem f⟩
      simp only [inferValue, hl]
      rw [inferArrayCore_eq_seq]
      rw [hvv] at ho
      simp only [finishArray, hvv, ho]

/-- Items position, two or more distinct fragments, all object-kind, no
hash collisions: `items` is the single merged object fragment — not a
union. -/
theorem items_merged_of_all_object {df : Bool} {elems frags : List Value}
    (hl : inferList df elems = some frags) (hcf : hashCF frags = true)
    (hdist : ∃ f ∈ frags, ∃ g ∈ frags, f ≠ g)
    (hobj : ∀ f ∈ frags, f.get "type" = some (.str "object")) :
    ∃ mf, inferValue df (.arr elems) =
        some (.obj [("items", .obj mf), ("type", .str "array")]) ∧
      lookupKV mf "type" = some (.str "object") := by
  obtain ⟨f0, hf0, g0, hg0, hne⟩ := hdist
  have hmem := vals_buildSeq_mem hcf
  obtain ⟨o, ho, hiff, hshape⟩ := tryMerge_total (vals_buildSeq_wf hl)
  cases o with
  | none =>
    exfalso
    obtain ⟨f, hf, hfne⟩ := hiff.mp rfl
    exact hfne (hobj f ((hmem f).mp hf))
  | some m =>
    obtain ⟨mf, rfl, hty⟩ := hshape m rfl
    cases hvv : (buildSeq frags).map Prod.snd with
    | nil =>
      exfalso
      have := (hmem f0).mpr hf0
      rw [hvv] at this
      exact absurd this (by simp)
    | cons v0 tail =>
      cases tail with
      | nil =>
        exfalso
        have h1 := (hmem f0).mpr hf0
        have h2 := (hmem g0).mpr hg0
        rw [hvv] at h1 h2
        simp only [List.mem_singleton] at h1 h2
        exact hne (h1.trans h2.symm)
      | cons v1 tail2 =>
        refine ⟨mf, ?_, hty⟩
        simp only [inferValue, hl]
        rw [inferArrayCore_eq_seq]
        rw [hvv] at ho
        simp only [finishArray, hvv, ho]

/-- C2 counterexample: for the array `[{"a": 1}, {}]` the two element
fragments are structurally distinct, yet the output's `items` is neither
fragment nor an `anyOf` union of them — it is the merged object — refuting
"two or more distinct fragments always produce an anyOf union listing
exactly the distinct fragments". -/
theorem distinct_fragments_not_unioned :
    ∃ F1 F2 itemsV : Value,
      inferValue true (.obj [("a", .num false 1)]) = some F1 ∧
      inferValue true (.obj []) = some F2 ∧
      F1 ≠ F2 ∧
      (infer (.arr [.obj [("a", .num false 1)], .obj []])).bind (fun r => r.get "items") =
        some itemsV ∧
      itemsV ≠ F1 ∧ itemsV ≠ F2 ∧
      itemsV.get "anyOf" = none ∧ itemsV.get "type" = some (.str "object") := by
  refine ⟨.obj [("properties", .obj [("a", .obj [("type", .str "integer")])]),
      ("required", .arr [.str "a"]), ("type", .str "object")],
    .obj [("properties", .obj []), ("required", .arr []), ("type", .str "object")],
    .obj [("properties", .obj [("a", .obj [("type", .str "integer")])]),
      ("type", .str "object")], ?_, ?_, ?_, ?_, ?_, ?_, ?_, ?_⟩ <;> decide

/-- The per-property dedup-append of `try_merge`: push the schema unless a
structurally equal one was already collected. -/
def pushProp (ts : List Value) (s : Value) : List Value :=
  if s ∈ ts then ts else ts ++ [s]

theorem mem_pushProp {ts : List Value} {s t : Value} : t ∈ pushProp ts s ↔ t ∈ ts ∨ t = s := by
  rw [pushProp]
  by_cases hs : s ∈ ts
  · rw [if_pos hs]
    exact ⟨Or.inl, fun h => h.elim id (fun he => he ▸ hs)⟩
  · rw [if_neg hs]
    simp

theorem nodup_pushProp {ts : List Value} (hnd : ts.Nodup) (s : Value) :
    (pushProp ts s).Nodup := by
  rw [pushProp]
  by_cases hs : s ∈ ts
  · rw [if_pos hs]; exact hnd
  · rw [if_neg hs, List.nodup_append]
    refine ⟨hnd, List.nodup_singleton s, ?_⟩
    intro a ha hb
    rw [List.mem_singleton] at hb
    subst hb
    exact hs ha

theorem pushProp_ne_nil (ts : List Value) (s : Value) : pushProp ts s ≠ [] := by
  rw [pushProp]
  by_cases hs : s ∈ ts
  · rw [if_pos hs]
    exact fun h => by subst h; exact absurd hs (by simp)
  · rw [if_neg hs]
    simp

theorem updateEntry_eq_none {m : List (String × List Value)} {n : String} {s : Value}
    (h : lookupKV m n = none) : updateEntry m n s = insertKV strLt m n [s] := by
  simp only [updateEntry, h]

theorem updateEntry_eq_mem {m : List (String × List Value)} {n : String} {s : Value}
    {ts : List Value} (h : lookupKV m n = some ts) (hs : s ∈ ts) :
    updateEntry m n s = m := by
  simp only [updateEntry, h]
  rw [if_pos hs]

theorem updateEntry_eq_push {m : List (String × List Value)} {n : String} {s : Value}
    {ts : List Value} (h : lookupKV m n = some ts) (hs : s ∉ ts) :
    updateEntry m n s = insertKV strLt m n (ts ++ [s]) := by
  simp only [updateEntry, h]
  rw [if_neg hs]

theorem updateEntry_lookup_self_none {m : List (String × List Value)} {n : String}
    {s : Value} (h : lookupKV m n = none) : lookupKV (updateEntry m n s) n = some [s] := by
  rw [updateEntry_eq_none h, lookupKV_insertKV_self]

theorem updateEntry_lookup_self_some {m : List (String × List Value)} {n : String}
    {s : Value} {ts : List Value} (h : lookupKV m n = some ts) :
    lookupKV (updateEntry m n s) n = some (pushProp ts s) := by
  by_cases hs : s ∈ ts
  · rw [updateEntry_eq_mem h hs, h, pushProp, if_pos hs]
  · rw [updateEntry_eq_push h hs, lookupKV_insertKV_self, pushProp, if_neg hs]

theorem updateEntry_lookup_other {m : List (String × List Value)} {n : String}
    {s : Value} {j : String} (hj : j ≠ n) :
    lookupKV (updateEntry m n s) j = lookupKV m j := by
  cases hmn : lookupKV m n with
  | none =>
    rw [updateEntry_eq_none hmn]
    exact lookupKV_insertKV_ne strLt m n [s] j hj
  | some ts =>
    by_cases hs : s ∈ ts
    · rw [updateEntry_eq_mem hmn hs]
    · rw [updateEntry_eq_push hmn hs]
      exact lookupKV_insertKV_ne strLt m n (ts ++ [s]) j hj

theorem sorted_updateEntry {m : List (String × List Value)} (hs : SortedKV strLt m)
    (n : String) (s : Value) : SortedKV strLt (updateEntry m n s) := by
  cases hmn : lookupKV m n with
  | none =>
    rw [updateEntry_eq_none hmn]
    exact sorted_insertKV strLt (fun a b c h1 h2 => strLt_trans h1 h2)
      (fun a b h1 h2 => strLt_total h1 h2) hs n [s]
  | some ts =>
    by_cases hmem : s ∈ ts
    · rw [updateEntry_eq_mem hmn hmem]; exact hs
    · rw [updateEntry_eq_push hmn hmem]
      exact sorted_insertKV strLt (fun a b c h1 h2 => strLt_trans h1 h2)
        (fun a b h1 h2 => strLt_total h1 h2) hs n (ts ++ [s])

theorem sorted_foldl_updateEntry :
    ∀ (ps : List (String × Value)) (m : List (String × List Value)), SortedKV strLt m →
    SortedKV strLt (ps.foldl (fun acc p => updateEntry acc p.1 p.2) m) := by
  intro ps
  induction ps with
  | nil => exact fun m h => h
  | cons p ps ih => exact fun m h => ih _ (sorted_updateEntry h p.1 p.2)

/-- The distinct schemas collected for one property name across a pass
over `(name, schema)` pairs, in first-occurrence order, starting from
`acc`. -/
def collectAt (name : String) : List (String × Value) → List Value → List Value
  | [], acc => acc
  | p :: ps, acc => collectAt name ps (if p.1 = name then pushProp acc p.2 else acc)

theorem collectAt_ne_nil (name : String) :
    ∀ (ps : List (String × Value)) (acc : List Value), acc ≠ [] →
    collectAt name ps acc ≠ [] := by
  intro ps
  induction ps with
  | nil => exact fun acc h => h
  | cons p ps ih =>
    intro acc h
    rw [collectAt]
    by_cases hp : p.1 = name
    · rw [if_pos hp]
      exact ih _ (pushProp_ne_nil acc p.2)
    · rw [if_neg hp]
      exact ih _ h

theorem mem_collectAt (name : String) (t : Value) :
    ∀ (ps : List (String × Value)) (acc : List Value),
    t ∈ collectAt name ps acc ↔ t ∈ acc ∨ (name, t) ∈ ps := by
  intro ps
  induction ps with
  | nil => intro acc; simp [collectAt]
  | cons p ps ih =>
    intro acc
    rw [collectAt]
    by_cases hp : p.1 = name
    · rw [if_pos hp, ih, mem_pushProp]
      constructor
      · rintro ((h | h) | h)
        · exact Or.inl h
        · refine Or.inr ?_
          have hpe : p = (name, t) := Prod.ext hp h.symm
          rw [← hpe]
          exact List.mem_cons_self p ps
        · exact Or.inr (List.mem_cons_of_mem _ h)
      · rintro (h | h)
        · exact Or.inl (Or.inl h)
        · rcases List.mem_cons.mp h with h2 | h2
          · exact Or.inl (Or.inr (by rw [← h2]))
          · exact Or.inr h2
    · rw [if_neg hp, ih]
      constructor
      · rintro (h | h)
        · exact Or.inl h
        · exact Or.inr (List.mem_cons_of_mem _ h)
      · rintro (h | h)
        · exact Or.inl h
        · rcases List.mem_cons.mp h with h2 | h2
          · exact absurd (congrArg Prod.fst h2.symm) hp
          · exact Or.inr h2

theorem nodup_collectAt (name : String) :
    ∀ (ps : List (String × Value)) (acc : List Value), acc.Nodup →
    (collectAt name ps acc).Nodup := by
  intro ps
  induction ps with
  | nil => exact fun acc h => h
  | cons p ps ih =>
    intro acc h
    rw [collectAt]
    by_cases hp : p.1 = name
    · rw [if_pos hp]
      exact ih _ (nodup_pushProp h p.2)
    · rw [if_neg hp]
      exact ih _ h

theorem foldl_updateEntry_lookup (name : String) :
    ∀ (ps : List (String × Value)) (m : List (String × List Value)),
    lookupKV (ps.foldl (fun acc p => updateEntry acc p.1 p.2) m) name =
      match lookupKV m name with
      | some ts => some (collectAt name ps ts)
      | none =>
        if collectAt name ps [] = [] then none else some (collectAt name ps []) := by
  intro ps
  induction ps with
  | nil =>
    intro m
    show lookupKV m name =
      match lookupKV m name with
      | some ts => some (collectAt name [] ts)
      | none =>
        if collectAt name [] [] = [] then none else some (collectAt name [] [])
    cases hmn : lookupKV m name with
    | none => simp [collectAt]
    | some ts => simp [collectAt]
  | cons p ps ih =>
    intro m
    show lookupKV (ps.foldl (fun acc p => updateEntry acc p.1 p.2) (updateEntry m p.1 p.2))
      name = _
    rw [ih]
    by_cases hp : p.1 = name
    · rw [← hp]
      cases hmn : lookupKV m p.1 with
      | some ts =>
        simp only [updateEntry_lookup_self_some hmn, hmn]
        have hcol : collectAt p.1 (p :: ps) ts = collectAt p.1 ps (pushProp ts p.2) := by
          rw [collectAt, if_pos rfl]
        rw [hcol]
      | none =>
        simp only [updateEntry_lookup_self_none hmn, hmn]
        have hpp : pushProp [] p.2 = [p.2] := by simp [pushProp]
        have hcol : collectAt p.1 (p :: ps) [] = collectAt p.1 ps [p.2] := by
          rw [collectAt, if_pos rfl, hpp]
        rw [hcol, if_neg (collectAt_ne_nil p.1 ps [p.2] (by simp))]
    · have hne : name ≠ p.1 := fun h => hp h.symm
      rw [updateEntry_lookup_other hne]
      have hcol : ∀ acc : List Value, collectAt name (p :: ps) acc = collectAt name ps acc := by
        intro acc
        rw [collectAt, if_neg hp]
      simp only [hcol]

theorem lookup_keys_none {κ α : Type} [DecidableEq κ] :
    ∀ {ps : List (κ × α)} {k : κ}, k ∉ ps.map Prod.fst → lookupKV ps k = none := by
  intro ps
  induction ps with
  | nil => intro k _; rfl
  | cons p ps ih =>
    intro k h
    simp only [List.map_cons, List.mem_cons, not_or] at h
    obtain ⟨k1, v1⟩ := p
    rw [lookupKV, if_neg h.1]
    exact ih h.2

theorem sortedKV_keys_nodup {κ α : Type} (lt : κ → κ → Bool) [DecidableEq κ]
    (hirr : ∀ a, lt a a = false) :
    ∀ {m : List (κ × α)}, SortedKV lt m → (m.map Prod.fst).Nodup := by
  intro m
  induction m with
  | nil => intro _; simp
  | cons p rest ih =>
    intro hs
    rw [SortedKV, List.pairwise_cons] at hs
    rw [List.map_cons, List.nodup_cons]
    refine ⟨?_, ih hs.2⟩
    intro hmem
    obtain ⟨q, hq, hqe⟩ := List.mem_map.mp hmem
    have := hs.1 q hq
    rw [hqe] at this
    rw [hirr] at this
    exact Bool.false_ne_true this

theorem foldl_insertKV_lookup (tr : List Value → Value) :
    ∀ (ps : List (String × List Value)) (acc : List (String × Value)) (name : String),
    (ps.map Prod.fst).Nodup →
    lookupKV (ps.foldl (fun a p => insertKV strLt a p.1 (tr p.2)) acc) name =
      match lookupKV ps name with
      | some ts => some (tr ts)
      | none => lookupKV acc name := by
  intro ps
  induction ps with
  | nil => intro acc name _; rfl
  | cons p ps ih =>
    intro acc name hnd
    obtain ⟨n0, ts0⟩ := p
    simp only [List.map_cons, List.nodup_cons] at hnd
    show lookupKV (ps.foldl (fun a p => insertKV strLt a p.1 (tr p.2))
      (insertKV strLt acc n0 (tr ts0))) name = _
    rw [ih _ name hnd.2]
    by_cases hn : name = n0
    · subst hn
      rw [lookup_keys_none hnd.1, lookupKV, if_pos rfl, lookupKV_insertKV_self]
    · rw [lookupKV, if_neg hn]
      cases lookupKV ps name with
      | some ts => rfl
      | none => exact lookupKV_insertKV_ne strLt acc n0 (tr ts0) name hn

/-- A property name/schema pair observed in some fragment of the merge
input (this is the claim-side reading of "the sibling fragments for that
property position"). -/
def observed (data : List Value) (name : String) (t : Value) : Prop :=
  ∃ item ∈ data, ∃ fields, item.get "properties" = some (.obj fields) ∧ (name, t) ∈ fields

theorem mem_allProps :
    ∀ {data : List Value} {p : String × Value},
    p ∈ allProps data ↔ ∃ item ∈ data, p ∈ propsOf item := by
  intro data
  induction data with
  | nil => intro p; simp [allProps]
  | cons item rest ih =>
    intro p
    show p ∈ propsOf item ++ allProps rest ↔ _
    rw [List.mem_append, ih]
    constructor
    · rintro (h | ⟨i2, hi2, hp2⟩)
      · exact ⟨item, by simp, h⟩
      · exact ⟨i2, List.mem_cons_of_mem _ hi2, hp2⟩
    · rintro ⟨i2, hi2, hp2⟩
      rcases List.mem_cons.mp hi2 with h2 | h2
      · exact Or.inl (h2 ▸ hp2)
      · exact Or.inr ⟨i2, h2, hp2⟩

theorem observed_iff {data : List Value} {name : String} {t : Value} :
    observed data name t ↔ (name, t) ∈ allProps data := by
  rw [mem_allProps, observed]
  constructor
  · rintro ⟨item, hitem, fields, hget, hmem⟩
    refine ⟨item, hitem, ?_⟩
    rw [propsOf, hget]
    exact hmem
  · rintro ⟨item, hitem, hmem⟩
    refine ⟨item, hitem, ?_⟩
    rw [propsOf] at hmem
    cases hget : item.get "properties" with
    | none => rw [hget] at hmem; exact absurd hmem (by simp)
    | some pv =>
      rw [hget] at hmem
      cases pv with
      | obj fields => exact ⟨fields, rfl, hmem⟩
      | null => exact absurd hmem (by simp)
      | bool b => exact absurd hmem (by simp)
      | num fl n => exact absurd hmem (by simp)
      | str s => exact absurd hmem (by simp)
      | arr a => exact absurd hmem (by simp)

/-- Property positions inside a merged object: every observed property name
is present, each is deduplicated by full structural equality in
first-occurrence order, a single distinct schema is emitted verbatim and
two or more become an `anyOf` of exactly the distinct schemas. -/
theorem merged_properties_char {data : List Value}
    (hwf : ∀ f ∈ data, ShallowWF f = true)
    (hobj : ∀ f ∈ data, f.get "type" = some (.str "object")) :
    ∃ mf props,
      tryMerge data = some (some (.obj mf)) ∧
      lookupKV mf "properties" = some (.obj props) ∧
      (∀ name t, observed data name t → ∃ v, lookupKV props name = some v) ∧
      (∀ name v, lookupKV props name = some v →
        ∃ ts : List Value, ts.Nodup ∧ (∀ t, t ∈ ts ↔ observed data name t) ∧
          (ts = [v] ∨ (2 ≤ ts.length ∧ v = .obj [("anyOf", .arr ts)]))) := by
  obtain ⟨pt, reqs, hreqs, hpt, htm⟩ := tryMerge_all_object hwf hobj
  have hsorted : SortedKV strLt pt := by
    rw [hpt]
    exact sorted_foldl_updateEntry (allProps data) [] (by rw [SortedKV]; simp)
  have hkeys : (pt.map Prod.fst).Nodup :=
    sortedKV_keys_nodup strLt (fun a => strLt_irrefl a) hsorted
  have hP : ∀ name, lookupKV (pt.foldl
      (fun acc p => insertKV strLt acc p.1 (mergePropValue p.2)) []) name =
      match lookupKV pt name with
      | some ts => some (mergePropValue ts)
      | none => none := by
    intro name
    rw [foldl_insertKV_lookup mergePropValue pt [] name hkeys]
    cases lookupKV pt name with
    | some ts => rfl
    | none => rfl
  have hPT : ∀ name, lookupKV pt name =
      (if collectAt name (allProps data) [] = [] then none
       else some (collectAt name (allProps data) [])) := by
    intro name
    rw [hpt, foldl_updateEntry_lookup name (allProps data) []]
    rfl
  refine ⟨_, _, htm, lookupKV_insertKV_self strLt _ _ _, ?_, ?_⟩
  · intro name t hobs
    have hmem : t ∈ collectAt name (allProps data) [] :=
      (mem_collectAt name t (allProps data) []).mpr (Or.inr (observed_iff.mp hobs))
    have hne := List.ne_nil_of_mem hmem
    refine ⟨mergePropValue (collectAt name (allProps data) []), ?_⟩
    rw [hP name, hPT name, if_neg hne]
  · intro name v hv
    rw [hP name, hPT name] at hv
    by_cases hc : collectAt name (allProps data) [] = []
    · rw [if_pos hc] at hv
      exact absurd hv (by simp)
    · rw [if_neg hc] at hv
      have hveq : v = mergePropValue (collectAt name (allProps data) []) := by
        have := Option.some.inj hv
        exact this.symm
      refine ⟨collectAt name (allProps data) [],
        nodup_collectAt name (allProps data) [] (by simp), ?_, ?_⟩
      · intro t
        rw [mem_collectAt name t (allProps data) [], observed_iff]
        simp
      · cases hcol : collectAt name (allProps data) [] with
        | nil => exact absurd hcol hc
        | cons t0 tail =>
          cases tail with
          | nil =>
            left
            rw [hveq, hcol]
            rfl
          | cons t1 tail2 =>
            right
            refine ⟨by simp, ?_⟩
            rw [hveq, hcol]
            rfl

/-- C2 amended: at the array-items position, element fragments are
deduplicated by the 64-bit structural hash (structurally equal fragments
always share a key; distinct fragments stay distinct unless their hashes
collide).  Absent collisions: exactly one distinct fragment becomes `items`
verbatim and never a union; two or more distinct fragments become an
`anyOf` union listing exactly the distinct fragments without duplicates
only when not all of them are object-kind — when all are object-kind they
are merged into a single object fragment instead.  At every property
position inside a merged object, deduplication is by full structural
content (not by reference identity or a hash): one distinct fragment is
held directly, two or more become an `anyOf` of exactly the distinct
fragments. -/
theorem dedup_and_union_amended :
    (∀ (df : Bool) (elems frags : List Value) (f : Value),
      inferList df elems = some frags → f ∈ frags → (∀ g ∈ frags, g = f) →
      inferValue df (.arr elems) = some (.obj [("items", f), ("type", .str "array")])) ∧
    (∀ (df : Bool) (elems frags : List Value),
      inferList df elems = some frags → hashCF frags = true →
      (∃ f ∈ frags, ∃ g ∈ frags, f ≠ g) →
      (∃ f ∈ frags, f.get "type" ≠ some (.str "object")) →
      ∃ vals : List Value, inferValue df (.arr elems) =
          some (.obj [("items", .obj [("anyOf", .arr vals)]), ("type", .str "array")]) ∧
        vals.Nodup ∧ (∀ f, f ∈ vals ↔ f ∈ frags)) ∧
    (∀ (df : Bool) (elems frags : List Value),
      inferList df elems = some frags → hashCF frags = true →
      (∃ f ∈ frags, ∃ g ∈ frags, f ≠ g) →
      (∀ f ∈ frags, f.get "type" = some (.str "object")) →
      ∃ mf, inferValue df (.arr elems) =
          some (.obj [("items", .obj mf), ("type", .str "array")]) ∧
        lookupKV mf "type" = some (.str "object")) ∧
    (∀ data : List Value,
      (∀ f ∈ data, ShallowWF f = true) →
      (∀ f ∈ data, f.get "type" = some (.str "object")) →
      ∃ mf props, tryMerge data = some (some (.obj mf)) ∧
        lookupKV mf "properties" = some (.obj props) ∧
        (∀ name t, observed data name t → ∃ v, lookupKV props name = some v) ∧
        (∀ name v, lookupKV props name = some v →
          ∃ ts : List Value, ts.Nodup ∧ (∀ t, t ∈ ts ↔ observed data name t) ∧
            (ts = [v] ∨ (2 ≤ ts.length ∧ v = .obj [("anyOf", .arr ts)])))) :=
  ⟨fun _ _ _ _ hl hf hall => items_single_distinct hl hf hall,
   fun _ _ _ hl hcf hd hn => items_union_of_nonobject hl hcf hd hn,
   fun _ _ _ hl hcf hd ho => items_merged_of_all_object hl hcf hd ho,
   fun _ hwf hobj => merged_properties_char hwf hobj⟩

/-- Closed witness for C2's amended theorem: an array with a single
distinct element fragment holds it verbatim. -/
theorem dedup_and_union_amended_witness :
    inferValue true (.arr [.null, .null]) =
      some (.obj [("items", .obj [("type", .str "null")]), ("type", .str "array")]) :=
  dedup_and_union_amended.1 true [.null, .null]
    [Value.obj [("type", .str "null")], Value.obj [("type", .str "null")]]
    (Value.obj [("type", .str "null")]) rfl (by decide) (by decide)

end Infers
